import Mathlib

/-! CDE `paths.c`: path canonicalisation and containment.

A shallow embedding of `strace-4.5.20/paths.c` (the mini-library for manipulating
file paths by Philip Guo) together with theorems about it.

Conventions of the embedding.

* A C string is the list of its characters before the terminating NUL (`CStr`).
* C `int` values are integers (`Int`). The arithmetic on `destlen` in `path2str`, the
  one place where a long path takes a sum out of the range of `int`, is modelled
  twice: `path2str` computes with mathematical integers and agrees with the C code
  as long as `destlen` stays in range; `path2str_int` and the canonicalisers built on
  it check the range, a result outside it being a fault of the run (`overflow`).
* The heap cells of `path->stack` are modelled one by one (`Slot`), including the
  cells that `realloc` leaves uninitialised; every array access is bounds checked and
  every assertion is evaluated, so that a run of the C code that would fault is a
  run of the model that returns an error (`Fault`).
* Loops are structural recursions on an explicit iteration budget.
-/

namespace CDE

/-- A C string: the characters in front of the terminating NUL. -/
abbrev CStr := List Char

/-- The ways a run can go wrong: a failed `assert`, an invalid memory access
(out of bounds, or through a NULL or uninitialised pointer), an exhausted
iteration budget of the model, or an arithmetic result outside the range of the
C type `int` (undefined behaviour in C). -/
inductive Fault where
  | assertion
  | memory
  | budget
  | overflow
deriving DecidableEq, Repr

deriving instance DecidableEq for Except

/-- Modelled from the spec: the macro `IS_ABSPATH` of the absent header `paths.h`;
a path is absolute when it begins with `/`. -/
def IS_ABSPATH (p : CStr) : Bool :=
  match p with
  | [] => false
  | c :: _ => c == '/'

/-- Modelled from the spec: `struct namecomp` of the absent header `paths.h`, with
the two fields `paths.c` uses: the recorded length and the component string. -/
structure namecomp where
  len : Int
  str : CStr
deriving DecidableEq, Repr

/-- One cell of the array `path->stack`: not yet initialised (fresh from `malloc`
or `realloc`), the NULL pointer, or a pointer to an owned `namecomp`. -/
inductive Slot where
  | garbage
  | null
  | comp (c : namecomp)
deriving DecidableEq, Repr

/-- Modelled from the spec: `struct path` of the absent header `paths.h`, with the
four fields `paths.c` uses. The list `stack` holds the allocated cells. -/
structure path where
  stacksize : Int
  depth : Int
  is_abspath : Bool
  stack : List Slot
deriving DecidableEq, Repr

/-! ## Memory primitives -/

/-- Read of `stack[i]`. -/
def readSlot (s : List Slot) (i : Int) : Except Fault Slot :=
  if 0 ≤ i ∧ i < s.length then .ok (s.getD i.toNat Slot.garbage) else .error Fault.memory

/-- Write of `stack[i] = v`. -/
def writeSlot (s : List Slot) (i : Int) (v : Slot) : Except Fault (List Slot) :=
  if 0 ≤ i ∧ i < s.length then .ok (s.set i.toNat v) else .error Fault.memory

/-- The call `realloc(stack, n * sizeof(struct namecomp*))`: the old cells are kept,
the new ones are uninitialised. -/
def realloc (s : List Slot) (n : Int) : List Slot :=
  (s ++ List.replicate (n.toNat - s.length) Slot.garbage).take n.toNat

/-- The call `free(stack[i])` on the value read from a cell: freeing NULL is
allowed, freeing an uninitialised pointer is not. -/
def freeSlot (v : Slot) : Except Fault Unit :=
  match v with
  | Slot.garbage => .error Fault.memory
  | _ => .ok ()

/-- Dereference of `stack[i]` as a `struct namecomp*`. -/
def derefSlot (s : List Slot) (i : Int) : Except Fault namecomp :=
  match readSlot s i with
  | .ok (Slot.comp c) => .ok c
  | .ok _ => .error Fault.memory
  | .error e => .error e

/-! ## String primitives -/

/-- The loop `while (*path == '/') path++;`. -/
def skip_slashes : CStr → CStr
  | [] => []
  | c :: cs => if c = '/' then skip_slashes cs else c :: cs

/-- The call `strchr(path, '/')`: the suffix that starts at the first `/`, or
`none` for the NULL result. -/
def strchr_slash : CStr → Option CStr
  | [] => none
  | c :: cs => if c = '/' then some (c :: cs) else strchr_slash cs

/-- The string seen at `path` once the stop-gap NUL has been stored at the first
`/`: the characters in front of that `/`. -/
def upto_slash : CStr → CStr
  | [] => []
  | c :: cs => if c = '/' then [] else c :: upto_slash cs

/-! ## `new_path`, `empty_path`, `path_pop`, `delete_path` -/

/-- The function `new_path`. -/
def new_path (is_abspath : Bool) : path :=
  { stacksize := 1, depth := 0, is_abspath := is_abspath, stack := [Slot.null] }

/-- The loop of `empty_path` and of `delete_path`, started at a given cell: every
cell up to the first NULL is freed and set to NULL. -/
def free_cells : List Slot → Except Fault (List Slot)
  | [] => .error Fault.memory
  | Slot.null :: rest => .ok (Slot.null :: rest)
  | Slot.garbage :: _ => .error Fault.memory
  | Slot.comp _ :: rest =>
    match free_cells rest with
    | .ok r => .ok (Slot.null :: r)
    | .error e => .error e

/-- The function `empty_path`. -/
def empty_path (p : path) : Except Fault path :=
  match free_cells p.stack with
  | .ok s => .ok { p with depth := 0, stack := s }
  | .error e => .error e

/-- The function `delete_path`: it succeeds when the cells can be walked up to a
NULL terminator. -/
def delete_path (p : path) : Except Fault Unit :=
  match free_cells p.stack with
  | .ok _ => .ok ()
  | .error e => .error e

/-- The function `path_pop`. -/
def path_pop (p : path) : Except Fault path :=
  if p.depth = 0 then .ok p
  else
    match readSlot p.stack (p.depth - 1) with
    | .error e => .error e
    | .ok v =>
      match freeSlot v with
      | .error e => .error e
      | .ok _ =>
        match writeSlot p.stack (p.depth - 1) Slot.null with
        | .error e => .error e
        | .ok s => .ok { p with stack := s, depth := p.depth - 1 }

/-! ## `new_path_internal` -/

/-- The growth loop `while (stackleft <= 1) { ... }` of `new_path_internal`, on the
pair of the stack and the counter `stackleft`. -/
def grow : Nat → path → Int → Except Fault (path × Int)
  | n, base, stackleft =>
    if stackleft ≤ 1 then
      match n with
      | 0 => .error Fault.budget
      | m + 1 =>
        let stacksize1 := base.stacksize * 2
        let stackleft1 := Int.tdiv stacksize1 2
        let stacksize2 := stacksize1 + 1
        let stackleft2 := stackleft1 + 1
        grow m { base with stacksize := stacksize2, stack := realloc base.stack stacksize2 }
          stackleft2
    else .ok (base, stackleft)

/-- The four-way branch of the loop body of `new_path_internal` on the component
`comp` found at `path`. -/
def handle_component (base : path) (stackleft : Int) (comp : CStr) :
    Except Fault (path × Int) :=
  if comp = [] then
    match writeSlot base.stack base.depth Slot.null with
    | .error e => .error e
    | .ok s => .ok ({ base with stack := s }, stackleft)
  else if comp = ['.'] then
    match writeSlot base.stack base.depth Slot.null with
    | .error e => .error e
    | .ok s => .ok ({ base with stack := s }, stackleft)
  else if comp = ['.', '.'] then
    if base.depth > 0 then
      let depth1 := base.depth - 1
      match readSlot base.stack depth1 with
      | .error e => .error e
      | .ok v =>
        match freeSlot v with
        | .error e => .error e
        | .ok _ =>
          match writeSlot base.stack depth1 Slot.null with
          | .error e => .error e
          | .ok s => .ok ({ base with depth := depth1, stack := s }, stackleft + 1)
    else .ok (base, stackleft)
  else
    match writeSlot base.stack base.depth
        (Slot.comp { len := (comp.length : Int), str := comp }) with
    | .error e => .error e
    | .ok s =>
      let depth1 := base.depth + 1
      match writeSlot s depth1 Slot.null with
      | .error e => .error e
      | .ok s1 => .ok ({ base with depth := depth1, stack := s1 }, stackleft - 1)

/-- The `do { ... } while (path)` loop of `new_path_internal`. -/
def parse_loop : Nat → path → Int → CStr → Except Fault path
  | 0, _, _, _ => .error Fault.budget
  | n + 1, base, stackleft, cur =>
    match grow (n + 1) base stackleft with
    | .error e => .error e
    | .ok (base1, stackleft1) =>
      let cur1 := skip_slashes cur
      let p := strchr_slash cur1
      match handle_component base1 stackleft1 (upto_slash cur1) with
      | .error e => .error e
      | .ok (base2, stackleft2) =>
        match p with
        | none => .ok base2
        | some rest => parse_loop n base2 stackleft2 (rest.drop 1)

/-- The function `new_path_internal`. The step `path++` of the absolute case is
the removal of the first character. Every caller sets the flag only for a string
that begins with `/`; on the empty string, where the C pointer would step over the
terminating NUL, the model keeps the empty string. -/
def new_path_internal (raw : CStr) (is_abspath : Bool) : Except Fault path :=
  let base := new_path is_abspath
  match (if is_abspath then empty_path base else .ok base) with
  | .error e => .error e
  | .ok base1 =>
    let cur := if is_abspath then raw.drop 1 else raw
    parse_loop (raw.length + 2) base1 (base1.stacksize - base1.depth - 1) cur

/-! ## `path2str` -/

/-- The destination of `path2str`: the size given to `malloc` and the bytes stored
so far, in order from the start of the block (`dest - ret` is their number). -/
structure StrBuf where
  alloc : Int
  bytes : CStr
deriving DecidableEq, Repr

/-- The store `*dest++ = c`. -/
def putc (b : StrBuf) (c : Char) : Except Fault StrBuf :=
  if (b.bytes.length : Int) < b.alloc then .ok { b with bytes := b.bytes ++ [c] }
  else .error Fault.memory

/-- The call `memcpy(dest, src, n); dest += n`, for a source string `src`: the
`n` bytes read are characters of `src`. -/
def memcpy (b : StrBuf) (src : CStr) (n : Int) : Except Fault StrBuf :=
  if 0 ≤ n ∧ n ≤ src.length ∧ (b.bytes.length : Int) + n ≤ b.alloc then
    .ok { b with bytes := b.bytes ++ src.take n.toNat }
  else .error Fault.memory

/-- The first loop of `path2str`, `for (i = 0; i < depth; i++) destlen += ...`,
with `n` iterations left and `destlen` a mathematical integer (`sum_lens_int` is
the loop on `int`). -/
def sum_lens (stack : List Slot) : Nat → Int → Int → Except Fault Int
  | 0, _, destlen => .ok destlen
  | n + 1, i, destlen =>
    match derefSlot stack i with
    | .error e => .error e
    | .ok c => sum_lens stack n (i + 1) (destlen + (c.len + 1))

/-- The second loop of `path2str`, with `n` iterations left. -/
def copy_comps (stack : List Slot) (depth : Int) :
    Nat → Int → StrBuf → Int → Except Fault (StrBuf × Int)
  | 0, _, dest, destlen => .ok (dest, destlen)
  | n + 1, i, dest, destlen =>
    match derefSlot stack i with
    | .error e => .error e
    | .ok c =>
      if destlen ≥ c.len + 1 then
        match memcpy dest c.str c.len with
        | .error e => .error e
        | .ok dest1 =>
          let destlen1 := destlen - c.len
          if i < depth - 1 then
            if destlen1 ≥ 2 then
              match putc dest1 '/' with
              | .error e => .error e
              | .ok dest2 => copy_comps stack depth n (i + 1) dest2 (destlen1 - 1)
            else .error Fault.assertion
          else copy_comps stack depth n (i + 1) dest1 destlen1
      else .error Fault.assertion

/-- The step `if (path->is_abspath) { *dest++ = '/'; destlen--; }` of `path2str`. -/
def put_root (is_abspath : Bool) (dest : StrBuf) (destlen : Int) :
    Except Fault (StrBuf × Int) :=
  if is_abspath then
    match putc dest '/' with
    | .error e => .error e
    | .ok d => .ok (d, destlen - 1)
  else .ok (dest, destlen)

/-- The function `path2str`, returning the destination block with what was stored
in it; the last store is the terminating NUL, which is checked but not kept in
`bytes`. Here `destlen` is a mathematical integer: the run is that of the C code as
long as the sum of the first loop is at most `INT_MAX` (`path2str_buf_int` is the
function on `int`). -/
def path2str_buf (p : path) (depth : Int) : Except Fault StrBuf :=
  let depth1 := if depth ≤ 0 ∨ depth > p.depth then p.depth else depth
  match sum_lens p.stack depth1.toNat 0 2 with
  | .error e => .error e
  | .ok destlen =>
    let dest : StrBuf := { alloc := destlen, bytes := [] }
    match put_root p.is_abspath dest destlen with
    | .error e => .error e
    | .ok (dest1, destlen1) =>
      match copy_comps p.stack depth1 depth1.toNat 0 dest1 destlen1 with
      | .error e => .error e
      | .ok (dest2, _) =>
        if (dest2.bytes.length : Int) < dest2.alloc then .ok dest2
        else .error Fault.memory

/-- The function `path2str`: the C string it returns. -/
def path2str (p : path) (depth : Int) : Except Fault CStr :=
  match path2str_buf p depth with
  | .error e => .error e
  | .ok b => .ok b.bytes

/-! ## `path2str` with the range of `int` checked -/

/-- The largest value of the C type `int` (32 bits). -/
def INT_MAX : Int := 2147483647

/-- The smallest value of the C type `int` (32 bits). -/
def INT_MIN : Int := -2147483648

/-- The result of an arithmetic operation on `int`: a value outside the range of
`int` is a fault of the run. -/
def int_result (x : Int) : Except Fault Int :=
  if INT_MIN ≤ x ∧ x ≤ INT_MAX then .ok x else .error Fault.overflow

/-- The first loop of `path2str`, `for (i = 0; i < depth; i++) destlen += ...`,
with `n` iterations left and with both additions of `destlen += len + 1` done on
`int`. -/
def sum_lens_int (stack : List Slot) : Nat → Int → Int → Except Fault Int
  | 0, _, destlen => .ok destlen
  | n + 1, i, destlen =>
    match derefSlot stack i with
    | .error e => .error e
    | .ok c =>
      match int_result (c.len + 1) with
      | .error e => .error e
      | .ok t =>
        match int_result (destlen + t) with
        | .error e => .error e
        | .ok d => sum_lens_int stack n (i + 1) d

/-- The function `path2str` with `int destlen`: the sum of the first loop is
computed on `int` and is the size given to `malloc`. The later operations on
`destlen`, `i` and `depth` have operands between 0 and that sum (each follows an
`assert` or a store that bounds it), so they stay in range and are the steps
`put_root` and `copy_comps` as they are. -/
def path2str_buf_int (p : path) (depth : Int) : Except Fault StrBuf :=
  let depth1 := if depth ≤ 0 ∨ depth > p.depth then p.depth else depth
  match sum_lens_int p.stack depth1.toNat 0 2 with
  | .error e => .error e
  | .ok destlen =>
    let dest : StrBuf := { alloc := destlen, bytes := [] }
    match put_root p.is_abspath dest destlen with
    | .error e => .error e
    | .ok (dest1, destlen1) =>
      match copy_comps p.stack depth1 depth1.toNat 0 dest1 destlen1 with
      | .error e => .error e
      | .ok (dest2, _) =>
        if (dest2.bytes.length : Int) < dest2.alloc then .ok dest2
        else .error Fault.memory

/-- The function `path2str` with `int destlen`: the C string it returns. -/
def path2str_int (p : path) (depth : Int) : Except Fault CStr :=
  match path2str_buf_int p depth with
  | .error e => .error e
  | .ok b => .ok b.bytes

/-! ## The canonicalisers -/

/-- The function `format` at its one format `"%s/%s"`. -/
def format_slash (a b : CStr) : Except Fault CStr :=
  let s := a ++ '/' :: b
  if s = [] then .error Fault.assertion else .ok s

/-- The function `new_path_from_abspath`. -/
def new_path_from_abspath (p : CStr) : Except Fault path :=
  if IS_ABSPATH p then new_path_internal p true else .error Fault.assertion

/-- The function `new_path_from_relpath`. -/
def new_path_from_relpath (relpath base : CStr) : Except Fault path :=
  if IS_ABSPATH relpath then .error Fault.assertion
  else if IS_ABSPATH base then
    match format_slash base relpath with
    | .error e => .error e
    | .ok tmp => new_path_from_abspath tmp
  else .error Fault.assertion

/-- The common tail of the canonicalisers: `path2str(p, 0)` and `delete_path(p)`. -/
def str_and_delete (p : path) : Except Fault CStr :=
  match path2str p 0 with
  | .error e => .error e
  | .ok ret =>
    match delete_path p with
    | .error e => .error e
    | .ok _ => .ok ret

/-- The function `canonicalize_abspath`. -/
def canonicalize_abspath (abspath : CStr) : Except Fault CStr :=
  match new_path_from_abspath abspath with
  | .error e => .error e
  | .ok p => str_and_delete p

/-- The function `canonicalize_relpath`. -/
def canonicalize_relpath (relpath base : CStr) : Except Fault CStr :=
  match new_path_from_relpath relpath base with
  | .error e => .error e
  | .ok p => str_and_delete p

/-- The function `canonicalize_path`. -/
def canonicalize_path (p relpath_base : CStr) : Except Fault CStr :=
  if IS_ABSPATH p then canonicalize_abspath p else canonicalize_relpath p relpath_base

/-! ## The canonicalisers with the range of `int` checked -/

/-- The common tail of the canonicalisers, `path2str(p, 0)` and `delete_path(p)`,
with `int destlen`. -/
def str_and_delete_int (p : path) : Except Fault CStr :=
  match path2str_int p 0 with
  | .error e => .error e
  | .ok ret =>
    match delete_path p with
    | .error e => .error e
    | .ok _ => .ok ret

/-- The function `canonicalize_abspath`, with `int destlen` in `path2str`. -/
def canonicalize_abspath_int (abspath : CStr) : Except Fault CStr :=
  match new_path_from_abspath abspath with
  | .error e => .error e
  | .ok p => str_and_delete_int p

/-- The function `canonicalize_relpath`, with `int destlen` in `path2str`. -/
def canonicalize_relpath_int (relpath base : CStr) : Except Fault CStr :=
  match new_path_from_relpath relpath base with
  | .error e => .error e
  | .ok p => str_and_delete_int p

/-- The function `canonicalize_path`, with `int destlen` in `path2str`. -/
def canonicalize_path_int (p relpath_base : CStr) : Except Fault CStr :=
  if IS_ABSPATH p then canonicalize_abspath_int p else canonicalize_relpath_int p relpath_base

/-! ## `file_is_within_dir` -/

/-- The test `strncmp(a, b, n) == 0`; a negative `int` passed as the `size_t`
count is a count larger than any string. -/
def strncmp_eq (a b : CStr) (n : Int) : Bool :=
  if n < 0 then decide (a = b) else decide (a.take n.toNat = b.take n.toNat)

/-- The function `file_is_within_dir`. -/
def file_is_within_dir (filename target_dir relative_path_basedir : CStr) :
    Except Fault Int :=
  match canonicalize_path filename relative_path_basedir with
  | .error e => .error e
  | .ok cano_filename =>
    let cano_filename_len : Int := cano_filename.length
    match canonicalize_abspath target_dir with
    | .error e => .error e
    | .ok fake_cano_dir =>
      let fake_cano_dir_len : Int := fake_cano_dir.length
      let cano_dir := if fake_cano_dir_len > 1 then fake_cano_dir ++ ['/'] else fake_cano_dir
      let cano_dir_len : Int := cano_dir.length
      if cano_dir_len ≤ cano_filename_len ∧ strncmp_eq cano_dir cano_filename cano_dir_len = true
      then .ok 1 else .ok 0

/-! ## `mkdir_recursive` -/

/-- The answer of the operating system to one `mkdir` call: success, failure
because the directory already exists, or any other failure. -/
inductive MkdirResult where
  | success
  | already_exists
  | failure
deriving DecidableEq, Repr

/-- One call `mkdir(path, mode)` together with the answer it received. -/
structure MkdirCall where
  path : CStr
  mode : Nat
  result : MkdirResult
deriving DecidableEq, Repr

/-- The operating system as seen by `mkdir`: its answer to a call may depend on
the calls made before. -/
abbrev MkdirOS := List MkdirCall → CStr → Nat → MkdirResult

/-- The loop `for (i = 1; i <= p->depth; i++)` of `mkdir_recursive`, with `n`
iterations left; `log` holds the calls made so far. The value returned by `mkdir`
is not used by the C code. -/
def mkdir_loop (os : MkdirOS) (p : path) : Nat → Int → List MkdirCall →
    Except Fault (List MkdirCall)
  | 0, _, log => .ok log
  | n + 1, i, log =>
    match path2str p i with
    | .error e => .error e
    | .ok dn => mkdir_loop os p n (i + 1) (log ++ [MkdirCall.mk dn 0o777 (os log dn 0o777)])

/-- The function `mkdir_recursive`: a run that returns normally gives the calls
to `mkdir` that it made, in order. -/
def mkdir_recursive (os : MkdirOS) (fullpath : CStr) (pop_one : Int) :
    Except Fault (List MkdirCall) :=
  match new_path_internal fullpath (IS_ABSPATH fullpath) with
  | .error e => .error e
  | .ok p =>
    match (if pop_one ≠ 0 then path_pop p else .ok p) with
    | .error e => .error e
    | .ok p1 =>
      match mkdir_loop os p1 p1.depth.toNat 1 [] with
      | .error e => .error e
      | .ok log =>
        match delete_path p1 with
        | .error e => .error e
        | .ok _ => .ok log

/-! ## Reference notions for the statements -/

/-- The `/`-separated components of a string, empty ones included: a string with
`k` slashes has `k + 1` components. -/
def components : CStr → List CStr
  | [] => [[]]
  | c :: cs =>
    if c = '/' then [] :: components cs
    else
      match components cs with
      | [] => [[c]]
      | h :: t => (c :: h) :: t

/-- One step of the reference fold over components: an empty component and `.`
leave the stack unchanged, `..` removes the last segment if there is one, any
other component becomes the new last segment. -/
def ref_step (st : List CStr) (c : CStr) : List CStr :=
  if c = [] then st
  else if c = ['.'] then st
  else if c = ['.', '.'] then st.dropLast
  else st ++ [c]

/-- The reference left-to-right fold over a list of components, from the empty
stack. -/
def ref_fold (cs : List CStr) : List CStr :=
  cs.foldl ref_step []

/-- The string held by a cell of the stack, if it holds a component. -/
def slot_str : Slot → Option CStr
  | Slot.comp c => some c.str
  | _ => none

/-- The segment sequence of a stack: the strings of its first `depth` cells. -/
def segments (p : path) : List CStr :=
  (p.stack.take p.depth.toNat).filterMap slot_str

/-- A well-formed component cell: the recorded length is the length of the string,
which is non-empty, has no `/` and is neither `.` nor `..`. -/
def comp_ok (c : namecomp) : Prop :=
  c.len = c.str.length ∧ c.str ≠ [] ∧ '/' ∉ c.str ∧ c.str ≠ ['.'] ∧ c.str ≠ ['.', '.']

instance : DecidablePred comp_ok := fun c => by
  unfold comp_ok; infer_instance

/-- The PathStack invariant: `depth` is not negative, the first `depth` cells hold
well-formed components and the cell after them holds the NULL terminator. -/
def PathInv (p : path) : Prop :=
  0 ≤ p.depth ∧
  ∃ (cs : List namecomp) (rest : List Slot),
    p.stack = cs.map Slot.comp ++ Slot.null :: rest ∧
    (cs.length : Int) = p.depth ∧
    ∀ c ∈ cs, comp_ok c

/-- A clean segment: non-empty, without `/`, neither `.` nor `..`. -/
def clean (s : CStr) : Prop :=
  s ≠ [] ∧ '/' ∉ s ∧ s ≠ ['.'] ∧ s ≠ ['.', '.']

/-- Canonical form of a path string: it begins with `/`, no component is `.` or
`..`, no two adjacent characters are both `/`, and it ends with `/` only when it is
exactly `/`. -/
def canonical (s : CStr) : Prop :=
  s.head? = some '/' ∧
  (∀ c ∈ components s, c ≠ ['.'] ∧ c ≠ ['.', '.']) ∧
  s.Chain' (fun a b => ¬ (a = '/' ∧ b = '/')) ∧
  (s.getLast? = some '/' → s = ['/'])

/-- The segment list that the canonicalisers compute for an absolute path:
the reference fold over the components behind the leading `/`. -/
def abs_segments (p : CStr) : List CStr :=
  ref_fold (components (p.drop 1))

/-! ## Auxiliary notions of the proofs -/

/-- The cell that `new_path_internal` builds for a component string. -/
def mk_comp (s : CStr) : Slot :=
  Slot.comp { len := (s.length : Int), str := s }

/-- The component record that `new_path_internal` builds for a string. -/
def mk_namecomp (s : CStr) : namecomp :=
  { len := (s.length : Int), str := s }

/-- The invariant of the `do ... while` loop of `new_path_internal`, at the head
of the loop and after the branch on the component: the cells are the components of
`segs`, then the NULL terminator, then cells of no fixed content; `depth` and
`stacksize` count the components and the allocated cells; `stackleft` is not
negative and does not exceed the number of cells behind the terminator. -/
def LoopInv (base : path) (stackleft : Int) (segs : List CStr) : Prop :=
  ∃ junk : List Slot,
    base.stack = segs.map mk_comp ++ Slot.null :: junk ∧
    base.depth = (segs.length : Int) ∧
    base.stacksize = (base.stack.length : Int) ∧
    0 ≤ stackleft ∧
    stackleft ≤ base.stacksize - base.depth - 1

/-- The segments joined by single `/` characters, by recursion on the list. -/
def join_slash : List CStr → CStr
  | [] => []
  | [s] => s
  | s :: t :: r => s ++ '/' :: join_slash (t :: r)

/-- The sum that the first loop of `path2str` adds to `destlen`. -/
def lens_sum (cs : List namecomp) : Int :=
  (cs.map (fun c => c.len + 1)).sum

/-- The number of segments that `path2str(p, k)` uses. -/
def used_depth (p : path) (k : Int) : Int :=
  if 1 ≤ k ∧ k ≤ p.depth then k else p.depth

/-- The string whose canonical form `canonicalize_path` returns: the path itself
when it is absolute, the base joined to it by a `/` otherwise. -/
def resolved (p base : CStr) : CStr :=
  if IS_ABSPATH p then p else base ++ '/' :: p

/-- The segments written one after the other, each behind a `/`. -/
def slash_led : List CStr → CStr
  | [] => []
  | s :: t => '/' :: s ++ slash_led t

/-- The request of a call: its path and mode, without the answer. -/
def request (c : MkdirCall) : CStr × Nat :=
  (c.path, c.mode)

/-- An operating system that answers every call with success. -/
def os_success : MkdirOS := fun _ _ _ => MkdirResult.success

/-- The number of free cells of a stack: the cells behind the NULL terminator. -/
def free_slots (p : path) : Int :=
  p.stacksize - p.depth - 1

/-- One pass through the body of the `do ... while` loop of `new_path_internal`:
the stack and the counter `stackleft` at the head of the loop, after the growth
loop and after the branch on the component, and the component of the pass. -/
structure Pass where
  head : path × Int
  grown : path × Int
  comp : CStr
  done : path × Int
deriving DecidableEq, Repr

/-- The passes of `parse_loop`, in order, by the same recursion. -/
def parse_passes : Nat → path → Int → CStr → List Pass
  | 0, _, _, _ => []
  | n + 1, base, stackleft, cur =>
    match grow (n + 1) base stackleft with
    | .error _ => []
    | .ok g =>
      match handle_component g.1 g.2 (upto_slash (skip_slashes cur)) with
      | .error _ => []
      | .ok d =>
        { head := (base, stackleft), grown := g, comp := upto_slash (skip_slashes cur),
          done := d } ::
          (match strchr_slash (skip_slashes cur) with
            | none => []
            | some rest => parse_passes n d.1 d.2 (rest.drop 1))

/-- The passes of the loop in a run of `new_path_internal`. -/
def new_path_internal_passes (raw : CStr) (is_abspath : Bool) : List Pass :=
  match (if is_abspath then empty_path (new_path is_abspath)
      else .ok (new_path is_abspath)) with
  | .error _ => []
  | .ok base1 =>
    parse_passes (raw.length + 2) base1 (base1.stacksize - base1.depth - 1)
      (if is_abspath then raw.drop 1 else raw)

/-- The bytes that a segment list adds to `destlen` in `path2str`: for each
segment its length and 1. -/
def weight (segs : List CStr) : Int :=
  (segs.map (fun s => (s.length : Int) + 1)).sum

/-! ## Lemmas on strings and components -/

theorem components_ne_nil (s : CStr) : components s ≠ [] := by
  cases s with
  | nil => simp [components]
  | cons c cs =>
    by_cases h : c = '/'
    · simp [components, h]
    · simp only [components, h, ↓reduceIte]
      cases components cs <;> simp

theorem components_eq_splitOn (s : CStr) : components s = s.splitOn '/' := by
  induction s with
  | nil => rfl
  | cons c cs ih =>
    rw [List.splitOn, List.splitOnP_cons]
    by_cases h : c = '/'
    · simp only [components, h, ↓reduceIte, beq_self_eq_true]
      rw [ih]; rfl
    · have hb : (c == '/') = false := by simpa using h
      simp only [components, h, ↓reduceIte, hb, Bool.false_eq_true]
      have hne := components_ne_nil cs
      rw [← List.splitOn, ← ih]
      cases hc : components cs with
      | nil => exact absurd hc hne
      | cons x t => rfl

theorem components_cons_slash (cs : CStr) : components ('/' :: cs) = [] :: components cs := by
  simp [components]

theorem components_cons_other (c : Char) (cs : CStr) (h : c ≠ '/') :
    components (c :: cs) = (c :: (components cs).headD []) :: (components cs).tail := by
  simp only [components, h, ↓reduceIte]
  have := components_ne_nil cs
  cases hc : components cs with
  | nil => exact absurd hc this
  | cons a t => rfl

/-- The components of a string, read off by the two scanning primitives of the
parse loop. -/
theorem components_scan (s : CStr) :
    components s = upto_slash s ::
      (match strchr_slash s with
        | none => []
        | some rest => components (rest.drop 1)) := by
  induction s with
  | nil => rfl
  | cons c cs ih =>
    by_cases h : c = '/'
    · subst h; simp [components, upto_slash, strchr_slash]
    · rw [components_cons_other c cs h, ih]
      simp [upto_slash, strchr_slash, h]

theorem components_append_slash (a b : CStr) :
    components (a ++ '/' :: b) = components a ++ components b := by
  induction a with
  | nil => simp [components]
  | cons c cs ih =>
    by_cases h : c = '/'
    · subst h; simp [components_cons_slash, ih]
    · rw [List.cons_append, components_cons_other c _ h, components_cons_other c cs h, ih]
      have := components_ne_nil cs
      cases hc : components cs with
      | nil => exact absurd hc this
      | cons x t => simp

theorem components_no_slash (s : CStr) : ∀ c ∈ components s, '/' ∉ c := by
  induction s with
  | nil => simp [components]
  | cons c cs ih =>
    by_cases h : c = '/'
    · subst h; simpa [components_cons_slash] using ih
    · rw [components_cons_other c cs h]
      have := components_ne_nil cs
      cases hc : components cs with
      | nil => exact absurd hc this
      | cons x t =>
        rw [hc] at ih
        intro d hd
        simp only [List.headD_cons, List.tail_cons, List.mem_cons] at hd
        rcases hd with rfl | hd
        · simp only [List.mem_cons, not_or]
          exact ⟨fun e => h e.symm, ih x (by simp)⟩
        · exact ih d (by simp [hd])

theorem components_of_no_slash (s : CStr) (h : '/' ∉ s) : components s = [s] := by
  induction s with
  | nil => rfl
  | cons c cs ih =>
    simp only [List.mem_cons, not_or] at h
    rw [components_cons_other c cs (fun e => h.1 e.symm), ih h.2]; rfl

theorem strchr_slash_shorter (s rest : CStr) (h : strchr_slash s = some rest) :
    (rest.drop 1).length < s.length := by
  induction s with
  | nil => simp [strchr_slash] at h
  | cons c cs ih =>
    by_cases hc : c = '/'
    · simp only [strchr_slash, hc, ↓reduceIte, Option.some.injEq] at h
      subst h; simp
    · simp only [strchr_slash, hc, ↓reduceIte] at h
      have := ih h
      simp only [List.length_cons]; omega

theorem skip_slashes_length (s : CStr) : (skip_slashes s).length ≤ s.length := by
  induction s with
  | nil => simp [skip_slashes]
  | cons c cs ih =>
    by_cases hc : c = '/'
    · simp only [skip_slashes, hc, ↓reduceIte, List.length_cons]; omega
    · simp [skip_slashes, hc]

theorem ref_step_nil (st : List CStr) : ref_step st [] = st := by
  simp [ref_step]

theorem foldl_ref_step_skip (st : List CStr) (s : CStr) :
    (components (skip_slashes s)).foldl ref_step st = (components s).foldl ref_step st := by
  induction s with
  | nil => rfl
  | cons c cs ih =>
    by_cases hc : c = '/'
    · subst hc
      simp only [skip_slashes, ↓reduceIte, components_cons_slash, List.foldl_cons, ref_step_nil]
      exact ih
    · simp [skip_slashes, hc]

/-! ## Lemmas on the memory primitives -/

theorem set_at_length (pre post : List Slot) (x v : Slot) :
    (pre ++ x :: post).set pre.length v = pre ++ v :: post := by
  induction pre with
  | nil => rfl
  | cons a t ih => simp [ih]

theorem getD_at_length (pre post : List Slot) (x d : Slot) :
    (pre ++ x :: post).getD pre.length d = x := by
  induction pre with
  | nil => rfl
  | cons a t ih => simpa using ih

theorem writeSlot_at (pre post : List Slot) (x v : Slot) (i : Int) (hi : i = pre.length) :
    writeSlot (pre ++ x :: post) i v = .ok (pre ++ v :: post) := by
  subst hi
  have h : (0 : Int) ≤ (pre.length : Int) ∧
      (pre.length : Int) < ((pre ++ x :: post).length : Nat) := by
    constructor
    · omega
    · simp only [List.length_append, List.length_cons]; omega
  simp only [writeSlot, h, and_self, ↓reduceIte, Int.toNat_ofNat, set_at_length]

theorem readSlot_at (pre post : List Slot) (x : Slot) (i : Int) (hi : i = pre.length) :
    readSlot (pre ++ x :: post) i = .ok x := by
  subst hi
  have h : (0 : Int) ≤ (pre.length : Int) ∧
      (pre.length : Int) < ((pre ++ x :: post).length : Nat) := by
    constructor
    · omega
    · simp only [List.length_append, List.length_cons]; omega
  simp only [readSlot, h, and_self, ↓reduceIte, Int.toNat_ofNat, getD_at_length]

theorem realloc_grow (s : List Slot) (n : Nat) (h : s.length ≤ n) :
    realloc s (n : Int) = s ++ List.replicate (n - s.length) Slot.garbage := by
  simp only [realloc, Int.toNat_ofNat]
  apply List.take_of_length_le
  simp only [List.length_append, List.length_replicate]; omega

theorem grow_ok (n : Nat) (base : path) (stackleft : Int) (segs : List CStr)
    (hn : 1 ≤ n) (h : LoopInv base stackleft segs) :
    ∃ base1 stackleft1, grow n base stackleft = .ok (base1, stackleft1) ∧
      LoopInv base1 stackleft1 segs ∧ 2 ≤ stackleft1 ∧
      base1.is_abspath = base.is_abspath := by
  obtain ⟨junk, hst, hd, hsz, h0, hle⟩ := h
  by_cases hs : stackleft ≤ 1
  · obtain ⟨m, rfl⟩ : ∃ m, n = m + 1 := ⟨n - 1, by omega⟩
    have hlen : base.stack.length = segs.length + 1 + junk.length := by
      rw [hst]; simp only [List.length_append, List.length_map, List.length_cons]; omega
    have hdiv : Int.tdiv (base.stacksize * 2) 2 = base.stacksize := by
      rw [Int.mul_comm]; exact Int.mul_tdiv_cancel_left _ (by decide)
    have hsz2 : base.stacksize * 2 + 1 = ((2 * base.stack.length + 1 : Nat) : Int) := by
      rw [hsz]; push_cast; ring
    refine ⟨{ base with stacksize := base.stacksize * 2 + 1,
                        stack := realloc base.stack (base.stacksize * 2 + 1) },
      base.stacksize + 1, ?_, ?_, ?_, rfl⟩
    · rw [grow]
      simp only [hs, ↓reduceIte, hdiv]
      rw [grow.eq_def]
      have : ¬ (base.stacksize + 1 ≤ 1) := by rw [hsz]; omega
      simp only [this, ↓reduceIte]
    · refine ⟨junk ++ List.replicate (2 * base.stack.length + 1 - base.stack.length)
        Slot.garbage, ?_, hd, ?_, ?_, ?_⟩
      · show realloc base.stack (base.stacksize * 2 + 1) = _
        rw [hsz2, realloc_grow _ _ (by omega), hst]
        simp
      · show base.stacksize * 2 + 1 = ((realloc base.stack (base.stacksize * 2 + 1)).length : Int)
        rw [hsz2, realloc_grow _ _ (by omega)]
        simp only [List.length_append, List.length_replicate]
        congr 1; omega
      · rw [hsz]; omega
      · show base.stacksize + 1 ≤ base.stacksize * 2 + 1 - base.depth - 1
        rw [hsz, hd, hlen]; push_cast; omega
    · rw [hsz]; omega
  · refine ⟨base, stackleft, ?_, ⟨junk, hst, hd, hsz, h0, hle⟩, by omega, rfl⟩
    rw [grow.eq_def]; simp only [hs, ↓reduceIte]

theorem ref_step_dot (st : List CStr) : ref_step st ['.'] = st := by
  simp [ref_step]

theorem ref_step_dotdot (st : List CStr) : ref_step st ['.', '.'] = st.dropLast := by
  simp [ref_step]

theorem ref_step_other (st : List CStr) (c : CStr) (c0 : c ≠ []) (c1 : c ≠ ['.'])
    (c2 : c ≠ ['.', '.']) : ref_step st c = st ++ [c] := by
  simp [ref_step, c0, c1, c2]

theorem handle_component_ok (base : path) (stackleft : Int) (segs : List CStr) (c : CStr)
    (h : LoopInv base stackleft segs) (h2 : 2 ≤ stackleft) :
    ∃ base1 stackleft1, handle_component base stackleft c = .ok (base1, stackleft1) ∧
      LoopInv base1 stackleft1 (ref_step segs c) ∧
      base1.is_abspath = base.is_abspath := by
  obtain ⟨junk, hst, hd, hsz, h0, hle⟩ := h
  have hw : writeSlot base.stack base.depth Slot.null = .ok base.stack := by
    rw [hst]; exact writeSlot_at _ _ _ _ _ (by rw [hd]; simp)
  have hlen : base.stack.length = segs.length + 1 + junk.length := by
    rw [hst]; simp only [List.length_append, List.length_map, List.length_cons]; omega
  by_cases c0 : c = []
  · subst c0
    rw [ref_step_nil]
    refine ⟨base, stackleft, ?_, ⟨junk, hst, hd, hsz, h0, hle⟩, rfl⟩
    simp only [handle_component, ↓reduceIte, hw]
  by_cases c1 : c = ['.']
  · subst c1
    rw [ref_step_dot]
    refine ⟨base, stackleft, ?_, ⟨junk, hst, hd, hsz, h0, hle⟩, rfl⟩
    simp [handle_component, hw]
  by_cases c2 : c = ['.', '.']
  · subst c2
    rw [ref_step_dotdot]
    by_cases hpos : base.depth > 0
    · have hne : segs ≠ [] := by
        intro e; rw [e] at hd; simp at hd; omega
      obtain ⟨ini, lst, rfl⟩ : ∃ ini lst, segs = ini ++ [lst] :=
        ⟨segs.dropLast, segs.getLast hne, (List.dropLast_append_getLast hne).symm⟩
      have hst1 : base.stack = ini.map mk_comp ++ mk_comp lst :: (Slot.null :: junk) := by
        rw [hst]; simp
      have hd1 : base.depth = (ini.length : Int) + 1 := by
        rw [hd]; simp
      have hidx : base.depth - 1 = ((ini.map mk_comp).length : Int) := by
        rw [hd1]; simp
      have hr : readSlot base.stack (base.depth - 1) = .ok (mk_comp lst) := by
        rw [hst1]; exact readSlot_at _ _ _ _ hidx
      have hw1 : writeSlot base.stack (base.depth - 1) Slot.null =
          .ok (ini.map mk_comp ++ Slot.null :: (Slot.null :: junk)) := by
        rw [hst1]; exact writeSlot_at _ _ _ _ _ hidx
      rw [List.dropLast_concat]
      refine ⟨{ base with depth := base.depth - 1,
                          stack := ini.map mk_comp ++ Slot.null :: (Slot.null :: junk) },
        stackleft + 1, ?_, ⟨Slot.null :: junk, rfl, ?_, ?_, ?_, ?_⟩, rfl⟩
      · simp [handle_component, hpos, hr, hw1, mk_comp, freeSlot]
      · show base.depth - 1 = _
        omega
      · show base.stacksize = _
        rw [hsz, hst1]; simp
      · omega
      · show stackleft + 1 ≤ base.stacksize - (base.depth - 1) - 1
        omega
    · have hnil : segs = [] := by
        cases segs with
        | nil => rfl
        | cons a t => rw [hd] at hpos; simp at hpos
      subst hnil
      refine ⟨base, stackleft, ?_, ⟨junk, hst, hd, hsz, h0, hle⟩, rfl⟩
      simp [handle_component, hpos]
  · rw [ref_step_other _ _ c0 c1 c2]
    have hj : 2 ≤ junk.length := by
      rw [hsz, hd, hlen] at hle; push_cast at hle; omega
    obtain ⟨j, junk1, rfl⟩ : ∃ j junk1, junk = j :: junk1 := by
      cases junk with
      | nil => simp at hj
      | cons j t => exact ⟨j, t, rfl⟩
    have hwc : writeSlot base.stack base.depth (mk_comp c) =
        .ok (segs.map mk_comp ++ mk_comp c :: (j :: junk1)) := by
      rw [hst]; exact writeSlot_at _ _ _ _ _ (by rw [hd]; simp)
    have hwn : writeSlot (segs.map mk_comp ++ mk_comp c :: (j :: junk1)) (base.depth + 1)
        Slot.null = .ok ((segs ++ [c]).map mk_comp ++ Slot.null :: junk1) := by
      have e : segs.map mk_comp ++ mk_comp c :: (j :: junk1) =
          (segs ++ [c]).map mk_comp ++ j :: junk1 := by simp
      rw [e]; exact writeSlot_at _ _ _ _ _ (by rw [hd]; simp)
    refine ⟨{ base with depth := base.depth + 1,
                        stack := (segs ++ [c]).map mk_comp ++ Slot.null :: junk1 },
      stackleft - 1, ?_, ⟨junk1, rfl, ?_, ?_, ?_, ?_⟩, rfl⟩
    · have hwc1 := hwc
      simp only [mk_comp] at hwc1 hwn
      simp only [handle_component, c0, c1, c2, ↓reduceIte, hwc1, hwn]
    · show base.depth + 1 = _
      rw [hd]; simp
    · show base.stacksize = _
      rw [hsz, hst]; simp
    · omega
    · show stackleft - 1 ≤ base.stacksize - (base.depth + 1) - 1
      omega

theorem parse_loop_ok (n : Nat) : ∀ (base : path) (stackleft : Int) (segs : List CStr)
    (cur : CStr), cur.length + 1 ≤ n → LoopInv base stackleft segs →
    ∃ base1 stackleft1, parse_loop n base stackleft cur = .ok base1 ∧
      LoopInv base1 stackleft1 ((components cur).foldl ref_step segs) ∧
      base1.is_abspath = base.is_abspath := by
  induction n with
  | zero => intro _ _ _ _ hn; omega
  | succ n ih =>
    intro base stackleft segs cur hn hinv
    obtain ⟨b1, s1, hg, hinv1, hs1, ha1⟩ := grow_ok (n + 1) base stackleft segs (by omega) hinv
    obtain ⟨b2, s2, hh, hinv2, ha2⟩ :=
      handle_component_ok b1 s1 segs (upto_slash (skip_slashes cur)) hinv1 hs1
    have hfold := foldl_ref_step_skip segs cur
    rw [components_scan (skip_slashes cur)] at hfold
    cases hp : strchr_slash (skip_slashes cur) with
    | none =>
      refine ⟨b2, s2, ?_, ?_, by rw [ha2, ha1]⟩
      · simp only [parse_loop, hg, hh, hp]
      · rw [hp] at hfold
        rw [← hfold]; simpa using hinv2
    | some rest =>
      have hshort := strchr_slash_shorter _ _ hp
      have hskip := skip_slashes_length cur
      obtain ⟨b3, s3, hl, hinv3, ha3⟩ :=
        ih b2 s2 (ref_step segs (upto_slash (skip_slashes cur))) (rest.drop 1) (by omega) hinv2
      refine ⟨b3, s3, ?_, ?_, by rw [ha3, ha2, ha1]⟩
      · simp only [parse_loop, hg, hh, hp, hl]
      · rw [hp] at hfold
        rw [← hfold]; simpa using hinv3

theorem new_path_internal_ok (raw : CStr) (is_abspath : Bool) :
    ∃ p stackleft, new_path_internal raw is_abspath = .ok p ∧
      LoopInv p stackleft (ref_fold (components (if is_abspath then raw.drop 1 else raw))) ∧
      p.is_abspath = is_abspath := by
  have hinv : LoopInv (new_path is_abspath) 0 [] :=
    ⟨[], rfl, rfl, rfl, le_refl _, by simp [new_path]⟩
  have hlen : (if is_abspath then raw.drop 1 else raw).length + 1 ≤ raw.length + 2 := by
    split
    · simp only [List.length_drop]; omega
    · omega
  obtain ⟨p, s, hp, hi, ha⟩ := parse_loop_ok (raw.length + 2) (new_path is_abspath) 0 []
    (if is_abspath then raw.drop 1 else raw) hlen hinv
  refine ⟨p, s, ?_, hi, ha⟩
  cases is_abspath with
  | false => simpa [new_path_internal, new_path] using hp
  | true => simpa [new_path_internal, new_path, empty_path, free_cells] using hp

/-! ## Lemmas on `path2str` -/

theorem join_slash_eq_intercalate (l : List CStr) :
    join_slash l = List.intercalate ['/'] l := by
  induction l with
  | nil => rfl
  | cons s t ih =>
    cases t with
    | nil => simp [join_slash, List.intercalate]
    | cons a r =>
      rw [join_slash, ih]
      simp [List.intercalate]

theorem derefSlot_at (pre post : List Slot) (c : namecomp) (i : Int) (hi : i = pre.length) :
    derefSlot (pre ++ Slot.comp c :: post) i = .ok c := by
  simp only [derefSlot, readSlot_at pre post _ i hi]

theorem lens_sum_pos (cs : List namecomp) (h : ∀ c ∈ cs, c.len = c.str.length) :
    (cs.length : Int) ≤ lens_sum cs := by
  induction cs with
  | nil => simp [lens_sum]
  | cons c t ih =>
    have h1 := h c (by simp)
    have h2 := ih (fun d hd => h d (by simp [hd]))
    simp only [lens_sum, List.map_cons, List.sum_cons, List.length_cons] at h2 ⊢
    push_cast; omega

theorem sum_lens_ok (used : List namecomp) : ∀ (pre : List Slot) (post : List Slot)
    (acc : Int),
    sum_lens (pre ++ used.map Slot.comp ++ post) used.length (pre.length : Int) acc =
      .ok (acc + lens_sum used) := by
  induction used with
  | nil => intro pre post acc; simp [sum_lens, lens_sum]
  | cons c t ih =>
    intro pre post acc
    have hd : derefSlot (pre ++ (c :: t).map Slot.comp ++ post) (pre.length : Int) = .ok c := by
      have e : pre ++ (c :: t).map Slot.comp ++ post =
          pre ++ Slot.comp c :: (t.map Slot.comp ++ post) := by simp
      rw [e]; exact derefSlot_at _ _ _ _ rfl
    have e2 : pre ++ (c :: t).map Slot.comp ++ post =
        (pre ++ [Slot.comp c]) ++ t.map Slot.comp ++ post := by simp
    have hl : (pre.length : Int) + 1 = ((pre ++ [Slot.comp c]).length : Int) := by simp
    simp only [List.length_cons, sum_lens, hd]
    rw [e2, hl, ih]
    simp only [lens_sum, List.map_cons, List.sum_cons]
    congr 1; ring

theorem copy_comps_ok (used : List namecomp) : ∀ (pre post : List Slot) (depth : Int)
    (dest : StrBuf) (destlen : Int),
    (∀ c ∈ used, c.len = c.str.length) →
    depth = (pre.length : Int) + used.length →
    (dest.bytes.length : Int) + destlen = dest.alloc →
    1 + lens_sum used ≤ destlen →
    ∃ dest1 destlen1,
      copy_comps (pre ++ used.map Slot.comp ++ post) depth used.length (pre.length : Int)
        dest destlen = .ok (dest1, destlen1) ∧
      dest1.alloc = dest.alloc ∧
      dest1.bytes = dest.bytes ++ join_slash (used.map (fun c => c.str)) ∧
      (dest1.bytes.length : Int) + destlen1 = dest1.alloc ∧
      1 ≤ destlen1 := by
  induction used with
  | nil =>
    intro pre post depth dest destlen _ _ hb hl
    refine ⟨dest, destlen, by simp [copy_comps], rfl, by simp [join_slash], hb, ?_⟩
    simpa [lens_sum] using hl
  | cons c t ih =>
    intro pre post depth dest destlen hlen hdep hb hl
    have hc := hlen c (by simp)
    have ht : ∀ d ∈ t, d.len = d.str.length := fun d hd => hlen d (by simp [hd])
    have hpos := lens_sum_pos t ht
    have hsum : lens_sum (c :: t) = (c.len + 1) + lens_sum t := by
      simp [lens_sum]
    rw [hsum] at hl
    have hd : derefSlot (pre ++ (c :: t).map Slot.comp ++ post) (pre.length : Int) = .ok c := by
      have e : pre ++ (c :: t).map Slot.comp ++ post =
          pre ++ Slot.comp c :: (t.map Slot.comp ++ post) := by simp
      rw [e]; exact derefSlot_at _ _ _ _ rfl
    have e2 : pre ++ (c :: t).map Slot.comp ++ post =
        (pre ++ [Slot.comp c]) ++ t.map Slot.comp ++ post := by simp
    have hl1 : (pre.length : Int) + 1 = ((pre ++ [Slot.comp c]).length : Int) := by simp
    have hassert : destlen ≥ c.len + 1 := by omega
    have hcopy : memcpy dest c.str c.len =
        .ok { dest with bytes := dest.bytes ++ c.str } := by
      have hcond : 0 ≤ c.len ∧ c.len ≤ (c.str.length : Int) ∧
          (dest.bytes.length : Int) + c.len ≤ dest.alloc := by
        refine ⟨by omega, by omega, by omega⟩
      simp only [memcpy, hcond, and_self, ↓reduceIte]
      rw [hc]; simp
    cases t with
    | nil =>
      have hlast : ¬ ((pre.length : Int) < depth - 1) := by
        rw [hdep]; simp
      refine ⟨{ dest with bytes := dest.bytes ++ c.str }, destlen - c.len, ?_, rfl, ?_, ?_, ?_⟩
      · simp only [List.length_cons, List.length_nil, copy_comps, hd, hassert, ↓reduceIte,
          hcopy, hlast]
      · simp [join_slash]
      · simp only [List.length_append]; push_cast; omega
      · omega
    | cons d r =>
      have hmore : (pre.length : Int) < depth - 1 := by
        rw [hdep]; simp only [List.length_cons]; push_cast; omega
      have hassert2 : destlen - c.len ≥ 2 := by
        simp only [List.length_cons] at hpos; push_cast at hpos; omega
      have hput : putc { dest with bytes := dest.bytes ++ c.str } '/' =
          .ok { dest with bytes := dest.bytes ++ c.str ++ ['/'] } := by
        have hcond : (((dest.bytes ++ c.str).length : Nat) : Int) < dest.alloc := by
          simp only [List.length_append]; push_cast; omega
        simp only [putc, hcond, ↓reduceIte]
      obtain ⟨d1, l1, hrun, ha, hby, hbal, hge⟩ :=
        ih (pre ++ [Slot.comp c]) post depth
          { dest with bytes := dest.bytes ++ c.str ++ ['/'] } (destlen - c.len - 1) ht
          (by rw [hdep]; simp only [List.length_append, List.length_cons, List.length_nil]
              push_cast; omega)
          (by simp only [List.length_append, List.length_cons, List.length_nil]
              push_cast; omega)
          (by omega)
      refine ⟨d1, l1, ?_, ha, ?_, hbal, hge⟩
      · rw [List.length_cons, copy_comps]
        simp only [hd, hassert, ↓reduceIte, hcopy, hmore, hassert2, hput]
        rw [e2, hl1]; exact hrun
      · rw [hby]; simp [join_slash]

theorem path2str_buf_ok (p : path) (k : Int) (cs : List namecomp) (rest : List Slot)
    (hst : p.stack = cs.map Slot.comp ++ Slot.null :: rest)
    (hd : (cs.length : Int) = p.depth)
    (hlen : ∀ c ∈ cs, c.len = c.str.length) :
    ∃ b, path2str_buf p k = .ok b ∧
      b.bytes = (if p.is_abspath then ['/'] else []) ++
        join_slash ((cs.take (used_depth p k).toNat).map (fun c => c.str)) ∧
      b.alloc = 2 + lens_sum (cs.take (used_depth p k).toNat) ∧
      (b.bytes.length : Int) + 1 ≤ b.alloc := by
  have hdep : (if k ≤ 0 ∨ k > p.depth then p.depth else k) = used_depth p k := by
    unfold used_depth
    by_cases h : 1 ≤ k ∧ k ≤ p.depth
    · have : ¬ (k ≤ 0 ∨ k > p.depth) := by omega
      simp only [h, this, and_self, ↓reduceIte]
    · have : k ≤ 0 ∨ k > p.depth := by omega
      simp only [h, this, ↓reduceIte]
  have hrange : 0 ≤ used_depth p k ∧ used_depth p k ≤ p.depth := by
    unfold used_depth
    split <;> omega
  generalize hu : used_depth p k = u at hdep hrange
  obtain ⟨n, rfl⟩ : ∃ n : Nat, u = (n : Int) := ⟨u.toNat, by omega⟩
  have hn : n ≤ cs.length := by omega
  have htl : (cs.take n).length = n := by simp [hn]
  have hsplit : p.stack = [] ++ (cs.take n).map Slot.comp ++
      ((cs.drop n).map Slot.comp ++ Slot.null :: rest) := by
    rw [hst]
    conv_lhs => rw [← List.take_append_drop n cs]
    simp only [List.map_append, List.nil_append, List.append_assoc]
  have hused : ∀ c ∈ cs.take n, c.len = c.str.length :=
    fun c hc => hlen c (List.mem_of_mem_take hc)
  have hsum := sum_lens_ok (cs.take n) [] ((cs.drop n).map Slot.comp ++ Slot.null :: rest) 2
  rw [← hsplit, htl] at hsum
  have hpos := lens_sum_pos _ hused
  simp only [Int.toNat_ofNat]
  cases habs : p.is_abspath with
  | false =>
    obtain ⟨d1, l1, hrun, ha, hby, hbal, hge⟩ :=
      copy_comps_ok (cs.take n) [] ((cs.drop n).map Slot.comp ++ Slot.null :: rest) (n : Int)
        { alloc := 2 + lens_sum (cs.take n), bytes := [] } (2 + lens_sum (cs.take n))
        hused (by simp [htl]) (by simp) (by omega)
    rw [← hsplit, htl] at hrun
    refine ⟨d1, ?_, ?_, ha, by omega⟩
    · have hlt : (d1.bytes.length : Int) < d1.alloc := by omega
      simp only [path2str_buf, hdep, Int.toNat_ofNat, List.length_nil, Int.ofNat_zero] at hsum hrun ⊢
      simp only [hsum, put_root, habs, Bool.false_eq_true, ↓reduceIte, hrun, hlt]
    · simpa using hby
  | true =>
    obtain ⟨d1, l1, hrun, ha, hby, hbal, hge⟩ :=
      copy_comps_ok (cs.take n) [] ((cs.drop n).map Slot.comp ++ Slot.null :: rest) (n : Int)
        { alloc := 2 + lens_sum (cs.take n), bytes := ['/'] } (2 + lens_sum (cs.take n) - 1)
        hused (by simp [htl]) (by simp) (by omega)
    rw [← hsplit, htl] at hrun
    refine ⟨d1, ?_, ?_, ha, by omega⟩
    · have hlt : (d1.bytes.length : Int) < d1.alloc := by omega
      have hroom : (0 : Int) < 2 + lens_sum (cs.take n) := by omega
      simp only [path2str_buf, hdep, Int.toNat_ofNat, List.length_nil, Int.ofNat_zero] at hsum hrun ⊢
      simp only [hsum, put_root, habs, ↓reduceIte, putc, List.length_nil, Int.ofNat_zero,
        Nat.cast_zero, hroom, List.nil_append, hrun, hlt]
    · simpa using hby

theorem segments_of_rep (p : path) (cs : List namecomp) (rest : List Slot)
    (hst : p.stack = cs.map Slot.comp ++ Slot.null :: rest)
    (hd : (cs.length : Int) = p.depth) :
    segments p = cs.map (fun c => c.str) := by
  have hn : p.depth.toNat = (cs.map Slot.comp).length := by
    rw [← hd]; simp
  unfold segments
  rw [hst, hn, List.take_left]
  clear hst hd hn
  induction cs with
  | nil => rfl
  | cons c t ih => simpa [slot_str, List.filterMap_cons] using ih

theorem free_cells_ok (cs : List namecomp) (rest : List Slot) :
    ∃ s, free_cells (cs.map Slot.comp ++ Slot.null :: rest) = .ok s := by
  induction cs with
  | nil => exact ⟨_, rfl⟩
  | cons c t ih =>
    obtain ⟨s, hs⟩ := ih
    exact ⟨Slot.null :: s, by simp [free_cells, hs]⟩

/-! ## What the canonicalisers compute -/

theorem comps_of_segs (segs : List CStr) :
    segs.map mk_comp = (segs.map (fun s => ({ len := (s.length : Int), str := s } : namecomp))).map
      Slot.comp := by
  simp [mk_comp]

theorem str_of_segs (segs : List CStr) :
    (segs.map (fun s => ({ len := (s.length : Int), str := s } : namecomp))).map
      (fun c => c.str) = segs := by
  induction segs with
  | nil => rfl
  | cons s t ih => simpa using ih

theorem path2str_of_inv (p : path) (stackleft : Int) (segs : List CStr) (k : Int)
    (h : LoopInv p stackleft segs) :
    path2str p k = .ok ((if p.is_abspath then ['/'] else []) ++
      join_slash (segs.take (used_depth p k).toNat)) := by
  obtain ⟨junk, hst, hd, _, _, _⟩ := h
  rw [comps_of_segs] at hst
  obtain ⟨b, hb, hbytes, _, _⟩ := path2str_buf_ok p k _ junk hst (by rw [hd]; simp)
    (by intro c hc; simp only [List.mem_map] at hc; obtain ⟨s, _, rfl⟩ := hc; rfl)
  simp only [path2str, hb, hbytes]
  rw [← List.map_take, str_of_segs]

theorem str_and_delete_of_inv (p : path) (stackleft : Int) (segs : List CStr)
    (h : LoopInv p stackleft segs) :
    str_and_delete p = .ok ((if p.is_abspath then ['/'] else []) ++ join_slash segs) := by
  have hp := path2str_of_inv p stackleft segs 0 h
  obtain ⟨junk, hst, hd, _, _, _⟩ := h
  have hu : (used_depth p 0).toNat = segs.length := by
    simp [used_depth, hd]
  rw [hu, List.take_length] at hp
  rw [comps_of_segs] at hst
  obtain ⟨s, hs⟩ := free_cells_ok (segs.map (fun s => ({ len := (s.length : Int), str := s } :
    namecomp))) junk
  rw [← hst] at hs
  simp only [str_and_delete, hp, delete_path, hs]

theorem canonicalize_abspath_eq (p : CStr) (h : IS_ABSPATH p = true) :
    canonicalize_abspath p = .ok ('/' :: join_slash (abs_segments p)) := by
  obtain ⟨q, sl, hq, hinv, ha⟩ := new_path_internal_ok p true
  have hs := str_and_delete_of_inv q sl _ hinv
  simp only [canonicalize_abspath, new_path_from_abspath, h, ↓reduceIte, hq, hs, ha]
  rfl

theorem canonicalize_abspath_rel (p : CStr) (h : IS_ABSPATH p = false) :
    canonicalize_abspath p = .error Fault.assertion := by
  simp [canonicalize_abspath, new_path_from_abspath, h]

theorem IS_ABSPATH_append (a b : CStr) (h : IS_ABSPATH a = true) :
    IS_ABSPATH (a ++ b) = true := by
  cases a with
  | nil => simp [IS_ABSPATH] at h
  | cons c t => simpa [IS_ABSPATH] using h

theorem canonicalize_relpath_eq (rel base : CStr) (hr : IS_ABSPATH rel = false)
    (hb : IS_ABSPATH base = true) :
    canonicalize_relpath rel base = canonicalize_abspath (base ++ '/' :: rel) := by
  simp [canonicalize_relpath, canonicalize_abspath, new_path_from_relpath, hr, hb, format_slash]

theorem canonicalize_path_eq (p base : CStr)
    (h : IS_ABSPATH p = true ∨ IS_ABSPATH base = true) :
    canonicalize_path p base = .ok ('/' :: join_slash (abs_segments (resolved p base))) := by
  cases hp : IS_ABSPATH p with
  | true =>
    simp only [canonicalize_path, resolved, hp, ↓reduceIte]
    exact canonicalize_abspath_eq p hp
  | false =>
    have hb : IS_ABSPATH base = true := by
      rcases h with h | h
      · rw [hp] at h; exact absurd h (by decide)
      · exact h
    simp only [canonicalize_path, resolved, hp, Bool.false_eq_true, ↓reduceIte]
    rw [canonicalize_relpath_eq p base hp hb,
      canonicalize_abspath_eq _ (IS_ABSPATH_append _ _ hb)]

/-! ## Clean segments and canonical strings -/

theorem foldl_ref_step_clean (cs : List CStr) : ∀ (st : List CStr),
    (∀ c ∈ cs, '/' ∉ c) → (∀ s ∈ st, clean s) →
    ∀ s ∈ cs.foldl ref_step st, clean s := by
  induction cs with
  | nil => intro st _ hst; simpa using hst
  | cons c t ih =>
    intro st hcs hst
    rw [List.foldl_cons]
    apply ih _ (fun d hd => hcs d (by simp [hd]))
    by_cases c0 : c = []
    · subst c0; rw [ref_step_nil]; exact hst
    by_cases c1 : c = ['.']
    · subst c1; rw [ref_step_dot]; exact hst
    by_cases c2 : c = ['.', '.']
    · subst c2; rw [ref_step_dotdot]
      exact fun s hs => hst s (List.mem_of_mem_dropLast hs)
    · rw [ref_step_other _ _ c0 c1 c2]
      intro s hs
      rw [List.mem_append, List.mem_singleton] at hs
      rcases hs with hs | rfl
      · exact hst s hs
      · exact ⟨c0, hcs s (by simp), c1, c2⟩

theorem abs_segments_clean (p : CStr) : ∀ s ∈ abs_segments p, clean s :=
  foldl_ref_step_clean _ [] (components_no_slash _) (by simp)

theorem foldl_ref_step_of_clean (cs : List CStr) : ∀ (st : List CStr),
    (∀ c ∈ cs, clean c) → cs.foldl ref_step st = st ++ cs := by
  induction cs with
  | nil => intro st _; simp
  | cons c t ih =>
    intro st h
    obtain ⟨c0, _, c1, c2⟩ := h c (by simp)
    rw [List.foldl_cons, ref_step_other _ _ c0 c1 c2, ih _ (fun d hd => h d (by simp [hd]))]
    simp

theorem components_join_slash (segs : List CStr) (hne : segs ≠ [])
    (h : ∀ s ∈ segs, '/' ∉ s) : components (join_slash segs) = segs := by
  induction segs with
  | nil => exact absurd rfl hne
  | cons s t ih =>
    cases t with
    | nil => simpa [join_slash] using components_of_no_slash s (h s (by simp))
    | cons a r =>
      rw [join_slash, components_append_slash, components_of_no_slash s (h s (by simp)),
        ih (by simp) (fun d hd => h d (by simp [hd]))]
      rfl

theorem slash_led_eq (segs : List CStr) (hne : segs ≠ []) :
    '/' :: join_slash segs = slash_led segs := by
  induction segs with
  | nil => exact absurd rfl hne
  | cons s t ih =>
    cases t with
    | nil => simp [join_slash, slash_led]
    | cons a r =>
      rw [join_slash, slash_led, ← ih (by simp)]
      rfl

theorem chain_of_no_slash (s : CStr) (h : '/' ∉ s) :
    s.Chain' (fun a b => ¬ (a = '/' ∧ b = '/')) := by
  induction s with
  | nil => exact List.chain'_nil
  | cons a t ih =>
    simp only [List.mem_cons, not_or] at h
    rw [List.chain'_cons']
    refine ⟨fun y _ hy => h.1 hy.1.symm, ih h.2⟩

theorem slash_led_shape (segs : List CStr) (h : ∀ s ∈ segs, clean s) :
    (slash_led segs).Chain' (fun a b => ¬ (a = '/' ∧ b = '/')) ∧
      (slash_led segs).getLast? ≠ some '/' := by
  induction segs with
  | nil => simp [slash_led]
  | cons s t ih =>
    obtain ⟨hch, hlast⟩ := ih (fun d hd => h d (by simp [hd]))
    obtain ⟨s0, sns, _, _⟩ := h s (by simp)
    have hs_last : ∀ x ∈ ('/' :: s).getLast?, x ≠ '/' := by
      intro x hx
      rw [Option.mem_def, List.getLast?_cons] at hx
      cases hl : s.getLast? with
      | none => rw [List.getLast?_eq_none_iff] at hl; exact absurd hl s0
      | some y =>
        rw [hl] at hx
        simp only [Option.getD_some, Option.some.injEq] at hx
        subst hx
        intro e
        exact sns (e ▸ List.mem_of_getLast?_eq_some hl)
    have e : slash_led (s :: t) = ('/' :: s) ++ slash_led t := by simp [slash_led]
    rw [e]
    constructor
    · rw [List.chain'_append]
      refine ⟨?_, hch, fun x hx y _ hxy => hs_last x hx hxy.1⟩
      rw [List.chain'_cons']
      refine ⟨fun y hy hxy => ?_, chain_of_no_slash s sns⟩
      have : y ∈ s := List.mem_of_mem_head? hy
      exact sns (hxy.2 ▸ this)
    · rw [List.getLast?_append]
      cases hl : (slash_led t).getLast? with
      | none =>
        show ('/' :: s).getLast? ≠ some '/'
        intro hx
        exact hs_last '/' hx rfl
      | some y =>
        show some y ≠ some '/'
        rw [hl] at hlast
        exact hlast

theorem canonical_of_clean (segs : List CStr) (h : ∀ s ∈ segs, clean s) :
    canonical ('/' :: join_slash segs) := by
  cases hs : segs with
  | nil =>
    refine ⟨rfl, ?_, ?_, fun _ => rfl⟩
    · simp [join_slash, components]
    · simp [join_slash]
  | cons s t =>
    rw [← hs]
    have hne : segs ≠ [] := by rw [hs]; simp
    obtain ⟨hch, hlast⟩ := slash_led_shape segs h
    refine ⟨rfl, ?_, ?_, ?_⟩
    · rw [components_cons_slash, components_join_slash segs hne (fun d hd => (h d hd).2.1)]
      intro c hc
      rw [List.mem_cons] at hc
      rcases hc with rfl | hc
      · simp
      · exact ⟨(h c hc).2.2.1, (h c hc).2.2.2⟩
    · rw [slash_led_eq segs hne]; exact hch
    · rw [slash_led_eq segs hne]
      intro hx; exact absurd hx hlast

/-! ## Lemmas on containment -/

theorem strncmp_eq_iff (a b : CStr) :
    ((a.length : Int) ≤ (b.length : Int) ∧ strncmp_eq a b (a.length : Int) = true) ↔ a <+: b := by
  have hn : ¬ ((a.length : Int) < 0) := by omega
  simp only [strncmp_eq, hn, ↓reduceIte, Int.toNat_ofNat, List.take_length, decide_eq_true_eq]
  constructor
  · rintro ⟨_, h⟩
    exact List.prefix_iff_eq_take.mpr h
  · intro h
    exact ⟨by exact_mod_cast h.length_le, List.prefix_iff_eq_take.mp h⟩

theorem split_at_slash (d : CStr) : ∀ (f X Y : CStr), '/' ∉ d → '/' ∉ f →
    (Y = [] ∨ Y.head? = some '/') →
    (d ++ '/' :: X <+: f ++ Y ↔ d = f ∧ '/' :: X <+: Y) := by
  induction d with
  | nil =>
    intro f X Y _ hf _
    cases f with
    | nil => simp
    | cons b f1 =>
      simp only [List.mem_cons, not_or] at hf
      simp only [List.nil_append, List.cons_append, List.cons_prefix_cons, List.nil_eq,
        reduceCtorEq, false_and, iff_false, not_and]
      intro e; exact absurd e hf.1
  | cons a d1 ih =>
    intro f X Y hd hf hY
    simp only [List.mem_cons, not_or] at hd
    cases f with
    | nil =>
      simp only [List.cons_append, List.nil_append, reduceCtorEq, false_and, iff_false]
      rcases hY with rfl | hY
      · simp
      · cases Y with
        | nil => simp
        | cons y Y1 =>
          simp only [List.head?_cons, Option.some.injEq] at hY
          subst hY
          simp only [List.cons_prefix_cons, not_and]
          intro e; exact absurd e.symm hd.1
    | cons b f1 =>
      simp only [List.mem_cons, not_or] at hf
      simp only [List.cons_append, List.cons_prefix_cons, List.cons.injEq]
      rw [ih f1 X Y hd.2 hf.2 hY]
      tauto

theorem slash_led_head (segs : List CStr) :
    slash_led segs = [] ∨ (slash_led segs).head? = some '/' := by
  cases segs with
  | nil => left; rfl
  | cons s t => right; rfl

theorem slash_led_boundary (ds : List CStr) : ∀ (fs : List CStr),
    (∀ s ∈ ds, '/' ∉ s) → (∀ s ∈ fs, '/' ∉ s) →
    (slash_led ds ++ ['/'] <+: slash_led fs ↔ ds <+: fs ∧ ds ≠ fs) := by
  induction ds with
  | nil =>
    intro fs _ _
    cases fs with
    | nil => simp [slash_led]
    | cons f t => simp [slash_led]
  | cons d ds1 ih =>
    intro fs hds hfs
    cases fs with
    | nil => simp [slash_led]
    | cons f fs1 =>
      have hd := hds d (by simp)
      have hf := hfs f (by simp)
      have e1 : slash_led (d :: ds1) ++ ['/'] = '/' :: (d ++ (slash_led ds1 ++ ['/'])) := by
        simp [slash_led]
      have e2 : slash_led (f :: fs1) = '/' :: (f ++ slash_led fs1) := by
        simp [slash_led]
      rw [e1, e2, List.prefix_cons_inj]
      have hX : ∃ X, slash_led ds1 ++ ['/'] = '/' :: X := by
        cases ds1 with
        | nil => exact ⟨[], rfl⟩
        | cons a r => exact ⟨a ++ slash_led r ++ ['/'], by simp [slash_led]⟩
      obtain ⟨X, hX⟩ := hX
      rw [hX, split_at_slash d f X _ hd hf (slash_led_head fs1), ← hX,
        ih fs1 (fun s hs => hds s (by simp [hs])) (fun s hs => hfs s (by simp [hs]))]
      simp only [List.cons_prefix_cons, ne_eq, List.cons.injEq, not_and]
      tauto

theorem join_slash_eq_nil (segs : List CStr) (h : ∀ s ∈ segs, clean s)
    (e : join_slash segs = []) : segs = [] := by
  cases segs with
  | nil => rfl
  | cons s t =>
    exfalso
    have hs := (h s (by simp)).1
    cases t with
    | nil => exact hs (by simpa [join_slash] using e)
    | cons a r => simp [join_slash] at e

/-- The verdict of `file_is_within_dir` in terms of the two segment lists. -/
theorem file_is_within_dir_eq (filename target_dir base : CStr)
    (ht : IS_ABSPATH target_dir = true)
    (hf : IS_ABSPATH filename = true ∨ IS_ABSPATH base = true) :
    file_is_within_dir filename target_dir base =
      .ok (if abs_segments target_dir = [] ∨
          (abs_segments target_dir <+: abs_segments (resolved filename base) ∧
            abs_segments target_dir ≠ abs_segments (resolved filename base))
        then 1 else 0) := by
  have hfc := abs_segments_clean (resolved filename base)
  have hdc := abs_segments_clean target_dir
  simp only [file_is_within_dir, canonicalize_path_eq filename base hf,
    canonicalize_abspath_eq target_dir ht]
  generalize abs_segments (resolved filename base) = fs at hfc ⊢
  generalize abs_segments target_dir = ds at hdc ⊢
  cases ds with
  | nil =>
    have h1 : ¬ ((([('/' : Char)] : CStr).length : Int) > 1) := by decide
    simp only [join_slash, h1, ↓reduceIte]
    have hp : ['/'] <+: '/' :: join_slash fs := by simp
    have := (strncmp_eq_iff ['/'] ('/' :: join_slash fs)).mpr hp
    simp only [this, and_self, ↓reduceIte, true_or]
  | cons d ds1 =>
    have hdne : d ≠ [] := (hdc d (by simp)).1
    have hlen : ((('/' :: join_slash (d :: ds1)).length : Nat) : Int) > 1 := by
      rw [slash_led_eq _ (by simp)]
      cases d with
      | nil => exact absurd rfl hdne
      | cons a r => simp only [slash_led, List.cons_append, List.length_cons]; omega
    simp only [hlen, ↓reduceIte]
    have hiff := strncmp_eq_iff ('/' :: join_slash (d :: ds1) ++ ['/']) ('/' :: join_slash fs)
    have hcore : ('/' :: join_slash (d :: ds1) ++ ['/'] <+: '/' :: join_slash fs) ↔
        (d :: ds1 <+: fs ∧ d :: ds1 ≠ fs) := by
      rw [slash_led_eq (d :: ds1) (by simp)]
      cases fs with
      | nil =>
        cases d with
        | nil => exact absurd rfl hdne
        | cons a r => simp [slash_led, join_slash]
      | cons f fs1 =>
        rw [slash_led_eq (f :: fs1) (by simp)]
        exact slash_led_boundary _ _ (fun s hs => (hdc s hs).2.1) (fun s hs => (hfc s hs).2.1)
    rw [hcore] at hiff
    by_cases hw : d :: ds1 <+: fs ∧ d :: ds1 ≠ fs
    · rw [if_pos (hiff.mpr hw), if_pos (Or.inr hw)]
    · rw [if_neg (fun hc => hw (hiff.mp hc)),
        if_neg (fun hc => hc.elim (fun e => List.cons_ne_nil _ _ e) hw)]

/-- The example of C3: `/a/./b/../c` parsed as absolute has the segments `a`, `c`. -/
theorem new_path_internal_example :
    (new_path_internal "/a/./b/../c".toList true).map segments =
      .ok ["a".toList, "c".toList] := by
  decide

theorem path_pop_empty (p : path) (h : p.depth = 0) : path_pop p = .ok p := by
  simp [path_pop, h]

theorem path_pop_rep (p : path) (cs : List namecomp) (c : namecomp) (rest : List Slot)
    (hst : p.stack = (cs ++ [c]).map Slot.comp ++ Slot.null :: rest)
    (hd : ((cs ++ [c]).length : Int) = p.depth) :
    path_pop p = .ok { p with stack := cs.map Slot.comp ++ Slot.null :: (Slot.null :: rest),
                              depth := p.depth - 1 } ∧
      cs.map Slot.comp ++ Slot.null :: (Slot.null :: rest) =
        p.stack.set (p.depth - 1).toNat Slot.null := by
  have hst1 : p.stack = cs.map Slot.comp ++ Slot.comp c :: (Slot.null :: rest) := by
    rw [hst]; simp
  have hd1 : p.depth = (cs.length : Int) + 1 := by
    rw [← hd]; simp
  have hidx : p.depth - 1 = ((cs.map Slot.comp).length : Int) := by
    rw [hd1]; simp
  have hne : ¬ (p.depth = 0) := by omega
  have hr : readSlot p.stack (p.depth - 1) = .ok (Slot.comp c) := by
    rw [hst1]; exact readSlot_at _ _ _ _ hidx
  have hw : writeSlot p.stack (p.depth - 1) Slot.null =
      .ok (cs.map Slot.comp ++ Slot.null :: (Slot.null :: rest)) := by
    rw [hst1]; exact writeSlot_at _ _ _ _ _ hidx
  constructor
  · simp only [path_pop, hne, ↓reduceIte, hr, freeSlot, hw]
  · have hn : (p.depth - 1).toNat = (cs.map Slot.comp).length := by
      rw [hidx]; simp
    rw [hn, hst1, set_at_length]

theorem split_last (cs : List namecomp) (h : cs ≠ []) :
    ∃ ini lst, cs = ini ++ [lst] :=
  ⟨cs.dropLast, cs.getLast h, (List.dropLast_append_getLast h).symm⟩

theorem lens_sum_eq (cs : List namecomp) (h : ∀ c ∈ cs, c.len = c.str.length) :
    lens_sum cs = ((cs.map (fun c => c.str)).map (fun s => (s.length : Int) + 1)).sum := by
  induction cs with
  | nil => rfl
  | cons c t ih =>
    have h1 := h c (by simp)
    have h2 := ih (fun d hd => h d (by simp [hd]))
    simp only [lens_sum, List.map_cons, List.sum_cons, List.map_map] at h2 ⊢
    rw [h2, h1]

theorem resolved_abs (p base : CStr) (h : IS_ABSPATH p = true) : resolved p base = p := by
  simp [resolved, h]

theorem verdict_one (c : Prop) [Decidable c]
    (h : (Except.ok (if c then (1 : Int) else 0) : Except Fault Int) = .ok 1) : c := by
  by_contra hc
  rw [if_neg hc] at h
  exact absurd (Except.ok.inj h) (by decide)

/-! ## The claims on `path_pop`, the invariant and transitivity -/

/-- C15: on a stack that satisfies the PathStack invariant `path_pop` does not
fail; at depth 0 it leaves the stack as it is; at depth `d > 0` the depth becomes
`d - 1`, the segments are the first `d - 1` segments, `is_abspath` and `stacksize`
are unchanged, and the only cell that changes is cell `d - 1`, which becomes
NULL. -/
theorem path_pop_spec (p : path) (h : PathInv p) :
    ∃ q, path_pop p = .ok q ∧
      (p.depth = 0 → q = p) ∧
      (p.depth > 0 →
        q.depth = p.depth - 1 ∧
        segments q = (segments p).take (p.depth - 1).toNat ∧
        q.is_abspath = p.is_abspath ∧
        q.stacksize = p.stacksize ∧
        q.stack = p.stack.set (p.depth - 1).toNat Slot.null ∧
        readSlot q.stack (p.depth - 1) = .ok Slot.null) := by
  obtain ⟨h0, cs, rest, hst, hd, hok⟩ := h
  by_cases hz : p.depth = 0
  · exact ⟨p, path_pop_empty p hz, fun _ => rfl, fun hpos => by omega⟩
  · have hne : cs ≠ [] := by
      intro e; rw [e] at hd; simp at hd; exact hz hd.symm
    obtain ⟨ini, lst, rfl⟩ := split_last cs hne
    obtain ⟨hpop, hset⟩ := path_pop_rep p ini lst rest hst hd
    have hn : (p.depth - 1).toNat = ini.length := by
      rw [← hd]; simp
    have hlen : (ini.length : Int) = p.depth - 1 := by
      rw [← hd]; simp
    refine ⟨_, hpop, fun e => absurd e hz, fun _ => ⟨rfl, ?_, rfl, rfl, hset, ?_⟩⟩
    · rw [segments_of_rep p _ rest hst hd,
        segments_of_rep _ ini (Slot.null :: rest) rfl hlen, hn]
      simp
    · exact readSlot_at _ _ _ _ (by rw [← hlen]; simp)

theorem path_pop_spec_witness :
    PathInv ⟨3, 2, true, [.comp ⟨1, ['a']⟩, .comp ⟨1, ['b']⟩, .null]⟩ ∧
    ∃ q, path_pop ⟨3, 2, true, [.comp ⟨1, ['a']⟩, .comp ⟨1, ['b']⟩, .null]⟩ = .ok q ∧
      q = ⟨3, 1, true, [.comp ⟨1, ['a']⟩, .null, .null]⟩ :=
  ⟨⟨by decide, [⟨1, ['a']⟩, ⟨1, ['b']⟩], [], rfl, rfl, by decide⟩,
    (path_pop_spec ⟨3, 2, true, [.comp ⟨1, ['a']⟩, .comp ⟨1, ['b']⟩, .null]⟩
      ⟨by decide, [⟨1, ['a']⟩, ⟨1, ['b']⟩], [], rfl, rfl, by decide⟩).elim
      (fun q hq => ⟨q, hq.1, Except.ok.inj (hq.1.symm.trans (by decide))⟩)⟩

/-- C20: containment is transitive: for paths `f`, `d`, `e` that begin with `/`
and every base, if `f` is reported within `d` and `d` within `e`, then `f` is
reported within `e`. -/
theorem file_is_within_dir_trans (f d e base : CStr)
    (hf : IS_ABSPATH f = true) (hd : IS_ABSPATH d = true) (he : IS_ABSPATH e = true)
    (h1 : file_is_within_dir f d base = .ok 1)
    (h2 : file_is_within_dir d e base = .ok 1) :
    file_is_within_dir f e base = .ok 1 := by
  rw [file_is_within_dir_eq f d base hd (Or.inl hf), resolved_abs f base hf] at h1
  rw [file_is_within_dir_eq d e base he (Or.inl hd), resolved_abs d base hd] at h2
  rw [file_is_within_dir_eq f e base he (Or.inl hf), resolved_abs f base hf]
  have c1 := verdict_one _ h1
  have c2 := verdict_one _ h2
  rw [if_pos]
  rcases c2 with c2 | ⟨c2, c2n⟩
  · exact Or.inl c2
  · right
    rcases c1 with c1 | ⟨c1, c1n⟩
    · rw [c1] at c2
      exact absurd (List.prefix_nil.mp c2) (by rw [c1] at c2n; exact c2n)
    · refine ⟨c2.trans c1, ?_⟩
      intro e1
      rw [← e1] at c1
      exact c2n (List.IsPrefix.eq_of_length_le c2 c1.length_le)

theorem file_is_within_dir_trans_witness :
    IS_ABSPATH "/a/b/c".toList = true ∧ IS_ABSPATH "/a/b".toList = true ∧
    IS_ABSPATH "/a".toList = true ∧
    file_is_within_dir "/a/b/c".toList "/a/b".toList "/x".toList = .ok 1 ∧
    file_is_within_dir "/a/b".toList "/a".toList "/x".toList = .ok 1 ∧
    file_is_within_dir "/a/b/c".toList "/a".toList "/x".toList = .ok 1 :=
  ⟨by decide, by decide, by decide, by decide, by decide,
    file_is_within_dir_trans "/a/b/c".toList "/a/b".toList "/a".toList "/x".toList
      (by decide) (by decide) (by decide) (by decide) (by decide)⟩

/-! ## Lemmas on `mkdir_recursive` -/

theorem rep_of_loop_inv (p : path) (stackleft : Int) (segs : List CStr)
    (h : LoopInv p stackleft segs) :
    ∃ junk, p.stack = (segs.map mk_namecomp).map Slot.comp ++ Slot.null :: junk ∧
      ((segs.map mk_namecomp).length : Int) = p.depth := by
  obtain ⟨junk, hst, hd, _, _, _⟩ := h
  rw [comps_of_segs] at hst
  exact ⟨junk, hst, by rw [hd]; simp⟩

theorem mk_namecomp_len (l : List CStr) :
    ∀ c ∈ l.map mk_namecomp, c.len = c.str.length := by
  intro c hc
  simp only [List.mem_map] at hc
  obtain ⟨s, _, rfl⟩ := hc
  rfl

/-- The example of C11: `/a/b/c` requests `/a`, `/a/b`, `/a/b/c`, in that order. -/
theorem mkdir_recursive_example :
    (mkdir_recursive os_success "/a/b/c".toList 0).map (List.map request) =
      .ok [("/a".toList, 0o777), ("/a/b".toList, 0o777), ("/a/b/c".toList, 0o777)] := by
  decide

/-- The example of C17: the capacities in the passes of the run on `/a/b/c`
are 1 to 3, 3 to 7, and 7. -/
theorem growth_policy_example :
    (new_path_internal_passes "/a/b/c".toList true).map
        (fun ps => (ps.head.1.stacksize, ps.grown.1.stacksize)) =
      [(1, 3), (3, 7), (7, 7)] := by
  decide

/-- The example of C18: the counter and the free cells in the passes of the run
on `a/../b`, as (`stackleft`, `stacksize - depth - 1`) after the growth loop and
after the branch. -/
theorem parse_index_safety_example :
    (new_path_internal_passes "a/../b".toList false).map
        (fun ps => ((ps.grown.2, free_slots ps.grown.1), (ps.done.2, free_slots ps.done.1))) =
      [((2, 2), (1, 1)), ((4, 5), (5, 6)), ((5, 6), (4, 5))] := by
  decide

/-! ## Lemmas on `path2str` with the range of `int` checked -/

theorem int_result_ok (x : Int) (h0 : 0 ≤ x) (h1 : x ≤ INT_MAX) : int_result x = .ok x := by
  have : INT_MIN ≤ x := by unfold INT_MIN; omega
  simp only [int_result, this, h1, and_self, ↓reduceIte]

theorem int_result_over (x : Int) (h : INT_MAX < x) : int_result x = .error Fault.overflow := by
  have : ¬ (INT_MIN ≤ x ∧ x ≤ INT_MAX) := by omega
  simp only [int_result, this, ↓reduceIte]

theorem lens_sum_nonneg (cs : List namecomp) (h : ∀ c ∈ cs, 0 ≤ c.len) : 0 ≤ lens_sum cs := by
  induction cs with
  | nil => simp [lens_sum]
  | cons c t ih =>
    have h1 := h c (by simp)
    have h2 := ih (fun d hd => h d (by simp [hd]))
    simp only [lens_sum, List.map_cons, List.sum_cons] at h2 ⊢
    omega

theorem sum_lens_int_eq (used : List namecomp) : ∀ (pre post : List Slot) (acc : Int),
    (∀ c ∈ used, 0 ≤ c.len) → 0 ≤ acc → acc ≤ INT_MAX →
    sum_lens_int (pre ++ used.map Slot.comp ++ post) used.length (pre.length : Int) acc =
      if acc + lens_sum used ≤ INT_MAX then .ok (acc + lens_sum used)
      else .error Fault.overflow := by
  induction used with
  | nil =>
    intro pre post acc _ _ h1
    simp [sum_lens_int, lens_sum, h1]
  | cons c t ih =>
    intro pre post acc hlen h0 h1
    have hc := hlen c (by simp)
    have ht : ∀ d ∈ t, 0 ≤ d.len := fun d hd => hlen d (by simp [hd])
    have hrest := lens_sum_nonneg t ht
    have hsum : lens_sum (c :: t) = (c.len + 1) + lens_sum t := by
      simp [lens_sum]
    have hd : derefSlot (pre ++ (c :: t).map Slot.comp ++ post) (pre.length : Int) = .ok c := by
      have e : pre ++ (c :: t).map Slot.comp ++ post =
          pre ++ Slot.comp c :: (t.map Slot.comp ++ post) := by simp
      rw [e]; exact derefSlot_at _ _ _ _ rfl
    have e2 : pre ++ (c :: t).map Slot.comp ++ post =
        (pre ++ [Slot.comp c]) ++ t.map Slot.comp ++ post := by simp
    have hl : (pre.length : Int) + 1 = ((pre ++ [Slot.comp c]).length : Int) := by simp
    rw [List.length_cons, sum_lens_int]
    by_cases hA : c.len + 1 ≤ INT_MAX
    · have rA := int_result_ok _ (by omega : 0 ≤ c.len + 1) hA
      by_cases hB : acc + (c.len + 1) ≤ INT_MAX
      · have rB := int_result_ok _ (by omega : 0 ≤ acc + (c.len + 1)) hB
        simp only [hd, rA, rB]
        rw [e2, hl, ih _ _ _ ht (by omega) hB, hsum]
        have e3 : acc + (c.len + 1) + lens_sum t = acc + (c.len + 1 + lens_sum t) := by ring
        rw [e3]
      · have rB := int_result_over (acc + (c.len + 1)) (by omega)
        have : ¬ (acc + lens_sum (c :: t) ≤ INT_MAX) := by rw [hsum]; omega
        simp only [hd, rA, rB, this, ↓reduceIte]
    · have rA := int_result_over (c.len + 1) (by omega)
      have : ¬ (acc + lens_sum (c :: t) ≤ INT_MAX) := by rw [hsum]; omega
      simp only [hd, rA, this, ↓reduceIte]

/-- On a well-formed stack the function on `int` is the function on integers when
the sum of the first loop is at most `INT_MAX`, and faults otherwise. -/
theorem path2str_buf_int_eq (p : path) (k : Int) (cs : List namecomp) (rest : List Slot)
    (hst : p.stack = cs.map Slot.comp ++ Slot.null :: rest)
    (hd : (cs.length : Int) = p.depth)
    (hlen : ∀ c ∈ cs, c.len = c.str.length) :
    path2str_buf_int p k =
      if 2 + lens_sum (cs.take (used_depth p k).toNat) ≤ INT_MAX then path2str_buf p k
      else .error Fault.overflow := by
  have hdep : (if k ≤ 0 ∨ k > p.depth then p.depth else k) = used_depth p k := by
    unfold used_depth
    by_cases h : 1 ≤ k ∧ k ≤ p.depth
    · have : ¬ (k ≤ 0 ∨ k > p.depth) := by omega
      simp only [h, this, and_self, ↓reduceIte]
    · have : k ≤ 0 ∨ k > p.depth := by omega
      simp only [h, this, ↓reduceIte]
  have hrange : 0 ≤ used_depth p k ∧ used_depth p k ≤ p.depth := by
    unfold used_depth
    split <;> omega
  generalize used_depth p k = u at hdep hrange
  obtain ⟨n, rfl⟩ : ∃ n : Nat, u = (n : Int) := ⟨u.toNat, by omega⟩
  have hn : n ≤ cs.length := by omega
  have htl : (cs.take n).length = n := by simp [hn]
  have hsplit : p.stack = [] ++ (cs.take n).map Slot.comp ++
      ((cs.drop n).map Slot.comp ++ Slot.null :: rest) := by
    rw [hst]
    conv_lhs => rw [← List.take_append_drop n cs]
    simp only [List.map_append, List.nil_append, List.append_assoc]
  have hused : ∀ c ∈ cs.take n, 0 ≤ c.len := by
    intro c hc
    rw [hlen c (List.mem_of_mem_take hc)]
    omega
  have hsum := sum_lens_ok (cs.take n) [] ((cs.drop n).map Slot.comp ++ Slot.null :: rest) 2
  have hint := sum_lens_int_eq (cs.take n) []
    ((cs.drop n).map Slot.comp ++ Slot.null :: rest) 2 hused (by decide) (by decide)
  rw [← hsplit, htl] at hsum hint
  simp only [List.length_nil, Int.ofNat_zero, Nat.cast_zero] at hsum hint
  simp only [Int.toNat_ofNat]
  by_cases hfit : 2 + lens_sum (cs.take n) ≤ INT_MAX
  · rw [if_pos hfit] at hint
    rw [if_pos hfit]
    simp only [path2str_buf_int, path2str_buf, hdep, Int.toNat_ofNat, hsum, hint]
  · rw [if_neg hfit] at hint
    rw [if_neg hfit]
    simp only [path2str_buf_int, hdep, Int.toNat_ofNat, hint]

theorem lens_sum_mk (segs : List CStr) : lens_sum (segs.map mk_namecomp) = weight segs := by
  induction segs with
  | nil => rfl
  | cons s t ih =>
    simp only [lens_sum, weight, List.map_cons, List.sum_cons, List.map_map] at ih ⊢
    rw [ih]; rfl

theorem weight_nonneg (segs : List CStr) : 0 ≤ weight segs := by
  induction segs with
  | nil => simp [weight]
  | cons s t ih =>
    simp only [weight, List.map_cons, List.sum_cons] at ih ⊢
    omega

theorem weight_append (a b : List CStr) : weight (a ++ b) = weight a + weight b := by
  simp [weight]

theorem weight_take (segs : List CStr) (n : Nat) : weight (segs.take n) ≤ weight segs := by
  have h := weight_append (segs.take n) (segs.drop n)
  rw [List.take_append_drop] at h
  have := weight_nonneg (segs.drop n)
  omega

theorem weight_dropLast (segs : List CStr) : weight segs.dropLast ≤ weight segs := by
  rw [List.dropLast_eq_take]
  exact weight_take _ _

theorem weight_components (cur : CStr) : weight (components cur) = (cur.length : Int) + 1 := by
  induction cur with
  | nil => simp [weight, components]
  | cons c cs ih =>
    by_cases h : c = '/'
    · subst h
      rw [components_cons_slash]
      simp only [weight, List.map_cons, List.sum_cons, List.length_nil, List.length_cons] at ih ⊢
      rw [ih]; push_cast; ring
    · rw [components_cons_other c cs h]
      have hne := components_ne_nil cs
      cases hc : components cs with
      | nil => exact absurd hc hne
      | cons x t =>
        rw [hc] at ih
        simp only [weight, List.map_cons, List.sum_cons, List.length_cons, List.headD_cons,
          List.tail_cons] at ih ⊢
        push_cast
        omega

theorem weight_foldl (cs : List CStr) : ∀ st : List CStr,
    weight (cs.foldl ref_step st) ≤ weight st + weight cs := by
  induction cs with
  | nil => intro st; simp [weight]
  | cons c t ih =>
    intro st
    rw [List.foldl_cons]
    have h1 := ih (ref_step st c)
    have hstep : weight (ref_step st c) ≤ weight st + ((c.length : Int) + 1) := by
      unfold ref_step
      split
      · omega
      · split
        · omega
        · split
          · have := weight_dropLast st; omega
          · rw [weight_append]; simp [weight]
    have hcons : weight (c :: t) = ((c.length : Int) + 1) + weight t := by simp [weight]
    rw [hcons]; omega

theorem weight_abs_segments (p : CStr) (h : IS_ABSPATH p = true) :
    weight (abs_segments p) ≤ (p.length : Int) := by
  cases p with
  | nil => simp [IS_ABSPATH] at h
  | cons c t =>
    have h1 := weight_foldl (components t) []
    rw [weight_components] at h1
    simp only [abs_segments, ref_fold, List.drop_one, List.tail_cons, List.length_cons]
    simp only [weight, List.map_nil, List.sum_nil] at h1 ⊢
    push_cast
    omega

/-! ## What the canonicalisers on `int` compute -/

theorem path2str_int_of_rep (p : path) (k : Int) (cs : List namecomp) (rest : List Slot)
    (hst : p.stack = cs.map Slot.comp ++ Slot.null :: rest)
    (hd : (cs.length : Int) = p.depth)
    (hlen : ∀ c ∈ cs, c.len = c.str.length) :
    path2str_int p k =
      if 2 + lens_sum (cs.take (used_depth p k).toNat) ≤ INT_MAX then path2str p k
      else .error Fault.overflow := by
  have h := path2str_buf_int_eq p k cs rest hst hd hlen
  by_cases hfit : 2 + lens_sum (cs.take (used_depth p k).toNat) ≤ INT_MAX
  · rw [if_pos hfit] at h
    rw [if_pos hfit]
    simp only [path2str_int, path2str, h]
  · rw [if_neg hfit] at h
    rw [if_neg hfit]
    simp only [path2str_int, h]

theorem str_and_delete_int_of_inv (p : path) (stackleft : Int) (segs : List CStr)
    (h : LoopInv p stackleft segs) :
    str_and_delete_int p =
      if 2 + weight segs ≤ INT_MAX then
        .ok ((if p.is_abspath then ['/'] else []) ++ join_slash segs)
      else .error Fault.overflow := by
  have hold := str_and_delete_of_inv p stackleft segs h
  obtain ⟨junk, hst, hd⟩ := rep_of_loop_inv p stackleft segs h
  have hint := path2str_int_of_rep p 0 _ junk hst hd (mk_namecomp_len segs)
  have hu : (used_depth p 0).toNat = (segs.map mk_namecomp).length := by
    rw [← Int.toNat_ofNat (segs.map mk_namecomp).length, hd]
    simp [used_depth]
  rw [hu, List.take_length, lens_sum_mk] at hint
  by_cases hfit : 2 + weight segs ≤ INT_MAX
  · rw [if_pos hfit] at hint
    rw [if_pos hfit, ← hold]
    simp only [str_and_delete_int, str_and_delete, hint]
  · rw [if_neg hfit] at hint
    rw [if_neg hfit]
    simp only [str_and_delete_int, hint]

theorem canonicalize_abspath_int_eq (p : CStr) (h : IS_ABSPATH p = true) :
    canonicalize_abspath_int p =
      if 2 + weight (abs_segments p) ≤ INT_MAX then .ok ('/' :: join_slash (abs_segments p))
      else .error Fault.overflow := by
  obtain ⟨q, sl, hq, hinv, ha⟩ := new_path_internal_ok p true
  have hs := str_and_delete_int_of_inv q sl _ hinv
  simp only [canonicalize_abspath_int, new_path_from_abspath, h, ↓reduceIte, hq, hs, ha]
  rfl

theorem canonicalize_abspath_int_fit (p : CStr) (h : IS_ABSPATH p = true)
    (hfit : (p.length : Int) + 2 ≤ INT_MAX) :
    canonicalize_abspath_int p = .ok ('/' :: join_slash (abs_segments p)) := by
  rw [canonicalize_abspath_int_eq p h, if_pos]
  have := weight_abs_segments p h
  omega

theorem canonicalize_abspath_int_rel (p : CStr) (h : IS_ABSPATH p = false) :
    canonicalize_abspath_int p = .error Fault.assertion := by
  simp [canonicalize_abspath_int, new_path_from_abspath, h]

theorem canonicalize_relpath_int_eq (rel base : CStr) (hr : IS_ABSPATH rel = false)
    (hb : IS_ABSPATH base = true) :
    canonicalize_relpath_int rel base = canonicalize_abspath_int (base ++ '/' :: rel) := by
  simp [canonicalize_relpath_int, canonicalize_abspath_int, new_path_from_relpath, hr, hb,
    format_slash]

theorem canonicalize_relpath_int_bad (rel base : CStr)
    (h : IS_ABSPATH rel = true ∨ IS_ABSPATH base = false) :
    canonicalize_relpath_int rel base = .error Fault.assertion := by
  cases hr : IS_ABSPATH rel with
  | true => simp [canonicalize_relpath_int, new_path_from_relpath, hr]
  | false =>
    have hb : IS_ABSPATH base = false := by
      rcases h with h | h
      · rw [hr] at h; exact absurd h (by decide)
      · exact h
    simp [canonicalize_relpath_int, new_path_from_relpath, hr, hb]

theorem canonicalize_path_int_fit (p base : CStr)
    (h : IS_ABSPATH p = true ∨ IS_ABSPATH base = true)
    (hfit : ((resolved p base).length : Int) + 2 ≤ INT_MAX) :
    canonicalize_path_int p base = .ok ('/' :: join_slash (abs_segments (resolved p base))) := by
  cases hp : IS_ABSPATH p with
  | true =>
    simp only [resolved, hp, ↓reduceIte] at hfit
    simp only [canonicalize_path_int, resolved, hp, ↓reduceIte]
    exact canonicalize_abspath_int_fit p hp hfit
  | false =>
    have hb : IS_ABSPATH base = true := by
      rcases h with h | h
      · rw [hp] at h; exact absurd h (by decide)
      · exact h
    simp only [resolved, hp, Bool.false_eq_true, ↓reduceIte] at hfit
    simp only [canonicalize_path_int, resolved, hp, Bool.false_eq_true, ↓reduceIte]
    rw [canonicalize_relpath_int_eq p base hp hb]
    exact canonicalize_abspath_int_fit _ (IS_ABSPATH_append _ _ hb) hfit

/-- Within the range of `int` the canonicaliser on `int` and the canonicaliser on
integers return the same string. -/
theorem canonicalize_path_int_agrees (p base : CStr)
    (h : IS_ABSPATH p = true ∨ IS_ABSPATH base = true)
    (hfit : ((resolved p base).length : Int) + 2 ≤ INT_MAX) :
    canonicalize_path_int p base = canonicalize_path p base := by
  rw [canonicalize_path_int_fit p base h hfit, canonicalize_path_eq p base h]

/-! ## A path too long for `int destlen` -/

theorem clean_of_long (s : CStr) (h3 : 3 ≤ s.length) (hs : '/' ∉ s) : clean s := by
  refine ⟨?_, hs, ?_, ?_⟩
  · intro e; rw [e] at h3; simp at h3
  · intro e; rw [e] at h3; simp at h3
  · intro e; rw [e] at h3; simp at h3

theorem no_slash_replicate (n : Nat) : '/' ∉ List.replicate n 'a' := by
  intro h
  have := List.eq_of_mem_replicate h
  exact absurd this (by decide)

theorem abs_segments_long (n : Nat) (h : 3 ≤ n) :
    abs_segments ('/' :: List.replicate n 'a') = [List.replicate n 'a'] := by
  have hc : clean (List.replicate n 'a') :=
    clean_of_long _ (by rw [List.length_replicate]; exact h) (no_slash_replicate n)
  unfold abs_segments ref_fold
  rw [List.drop_one, List.tail_cons, components_of_no_slash _ (no_slash_replicate n)]
  exact foldl_ref_step_of_clean [List.replicate n 'a'] [] (by simpa using hc)

theorem canonicalize_abspath_int_long (n : Nat) (h : 2147483645 ≤ n) :
    canonicalize_abspath_int ('/' :: List.replicate n 'a') = .error Fault.overflow := by
  rw [canonicalize_abspath_int_eq ('/' :: List.replicate n 'a') rfl,
    abs_segments_long n (by omega), if_neg]
  simp only [weight, List.map_cons, List.map_nil, List.sum_cons, List.sum_nil,
    List.length_replicate, INT_MAX]
  omega

theorem path_inv_long (a : Bool) (n : Nat) (m : Int) (hm : m = (n : Int)) (h : 3 ≤ n) :
    PathInv ⟨3, 1, a, [Slot.comp ⟨m, List.replicate n 'a'⟩, Slot.null]⟩ := by
  refine ⟨show (0 : Int) ≤ 1 by decide, [⟨m, List.replicate n 'a'⟩], [], rfl, rfl, ?_⟩
  intro c hc
  rw [List.mem_singleton] at hc
  subst hc
  obtain ⟨h0, h1, h2, h3⟩ :=
    clean_of_long (List.replicate n 'a') (by rw [List.length_replicate]; exact h)
      (no_slash_replicate n)
  exact ⟨by simp [hm], h0, h1, h2, h3⟩

theorem path2str_buf_int_long (a : Bool) (n : Nat) (m : Int) (hm : m = (n : Int))
    (h : 2147483645 ≤ n) (k : Int) :
    path2str_buf_int ⟨3, 1, a, [Slot.comp ⟨m, List.replicate n 'a'⟩, Slot.null]⟩ k =
      .error Fault.overflow := by
  have hrep := path2str_buf_int_eq ⟨3, 1, a, [Slot.comp ⟨m, List.replicate n 'a'⟩, Slot.null]⟩ k
    [⟨m, List.replicate n 'a'⟩] [] rfl rfl
    (by intro c hc; rw [List.mem_singleton] at hc; subst hc; simp [hm])
  rw [hrep, if_neg]
  have hu : (used_depth ⟨3, 1, a, [Slot.comp ⟨m, List.replicate n 'a'⟩, Slot.null]⟩ k).toNat
      = 1 := by
    unfold used_depth
    split
    · rename_i hk
      simp only at hk
      have : k = 1 := by omega
      rw [this]; rfl
    · rfl
  rw [hu]
  simp only [List.take_succ_cons, List.take_zero, lens_sum, List.map_cons, List.map_nil,
    List.sum_cons, List.sum_nil, INT_MAX, hm]
  omega

theorem canonicalize_path_int_abs (p base : CStr) (h : IS_ABSPATH p = true) :
    canonicalize_path_int p base = canonicalize_abspath_int p := by
  simp only [canonicalize_path_int, h, ↓reduceIte]

theorem resolved_length (p base : CStr) :
    (resolved p base).length =
      if IS_ABSPATH p then p.length else base.length + 1 + p.length := by
  unfold resolved
  split
  · rfl
  · simp only [List.length_append, List.length_cons]; omega

theorem used_sum_eq (p : path) (cs : List namecomp) (rest : List Slot) (n : Nat)
    (hst : p.stack = cs.map Slot.comp ++ Slot.null :: rest)
    (hd : (cs.length : Int) = p.depth)
    (hlen : ∀ c ∈ cs, c.len = c.str.length) :
    lens_sum (cs.take n) =
      (((segments p).take n).map (fun s => (s.length : Int) + 1)).sum := by
  rw [lens_sum_eq _ (fun c hc => hlen c (List.mem_of_mem_take hc)),
    segments_of_rep p cs rest hst hd, List.map_take]

/-! ## The claims that depend on `int destlen` -/

/-- C1, as stated, fails for a path too long for `int destlen`: for `/` followed
by `2 ^ 31 - 3` letters the sum of the first loop of `path2str` is `2 ^ 31`, and
`canonicalize_path` returns no string. -/
theorem canonicalize_path_int_overflow :
    IS_ABSPATH ('/' :: List.replicate 2147483645 'a') = true ∧
    canonicalize_path_int ('/' :: List.replicate 2147483645 'a') ['/'] =
      .error Fault.overflow :=
  ⟨rfl, (canonicalize_path_int_abs ('/' :: List.replicate 2147483645 'a') ['/'] rfl).trans
    (canonicalize_abspath_int_long 2147483645 (le_refl _))⟩

/-- C1, amended: for every path and base of which one begins with `/` and such
that the string canonicalised (the path if it is absolute, the base, a `/` and the
path otherwise) has at most `INT_MAX - 2` bytes, `canonicalize_path` returns a
string in canonical form: it begins with `/`, none of its `/`-separated components
is `.` or `..`, no two adjacent characters are both `/`, and it ends with `/` only
when it is exactly `/`. -/
theorem canonicalize_path_int_canonical (p base : CStr)
    (h : IS_ABSPATH p = true ∨ IS_ABSPATH base = true)
    (hfit : (((if IS_ABSPATH p then p.length else base.length + 1 + p.length : Nat) : Int)) + 2
      ≤ INT_MAX) :
    ∃ out, canonicalize_path_int p base = .ok out ∧
      out.head? = some '/' ∧
      (∀ c ∈ components out, c ≠ ['.'] ∧ c ≠ ['.', '.']) ∧
      out.Chain' (fun a b => ¬ (a = '/' ∧ b = '/')) ∧
      (out.getLast? = some '/' → out = ['/']) := by
  rw [← resolved_length] at hfit
  exact ⟨_, canonicalize_path_int_fit p base h hfit, canonical_of_clean _ (abs_segments_clean _)⟩

theorem canonicalize_path_int_canonical_witness :
    (IS_ABSPATH "b//../c/".toList = true ∨ IS_ABSPATH "/a/./x".toList = true) ∧
    ((("/a/./x".toList.length + 1 + "b//../c/".toList.length : Nat) : Int) + 2 ≤ INT_MAX) ∧
    ∃ out, canonicalize_path_int "b//../c/".toList "/a/./x".toList = .ok out ∧
      out.head? = some '/' ∧
      (∀ c ∈ components out, c ≠ ['.'] ∧ c ≠ ['.', '.']) ∧
      out.Chain' (fun a b => ¬ (a = '/' ∧ b = '/')) ∧
      (out.getLast? = some '/' → out = ['/']) :=
  ⟨Or.inr (by decide), by decide,
    canonicalize_path_int_canonical "b//../c/".toList "/a/./x".toList (Or.inr (by decide))
      (by decide)⟩

/-- C4, as stated, fails on a stack whose one segment has `2 ^ 31 - 3` bytes: the
stack satisfies the PathStack invariant, the sum of the first loop of `path2str`
leaves the range of `int`, and no string is returned. -/
theorem path2str_int_overflow :
    PathInv ⟨3, 1, true,
      [Slot.comp ⟨2147483645, List.replicate 2147483645 'a'⟩, Slot.null]⟩ ∧
    path2str_int ⟨3, 1, true,
      [Slot.comp ⟨2147483645, List.replicate 2147483645 'a'⟩, Slot.null]⟩ 0 =
        .error Fault.overflow := by
  refine ⟨path_inv_long true 2147483645 2147483645 (by norm_num) (by norm_num), ?_⟩
  have h := path2str_buf_int_long true 2147483645 2147483645 (by norm_num) (le_refl _) 0
  simp only [path2str_int, h]

/-- C4, amended: for every stack that satisfies the PathStack invariant and every
integer `k` such that `2 + Σ (len + 1)`, summed over the segments used, is at most
`INT_MAX`, `path2str p k` is `/` for an absolute stack (nothing for a relative one)
followed by the first `k'` segments joined by single `/` characters, where `k'` is
`k` when `1 ≤ k ≤ depth` and `depth` otherwise. -/
theorem path2str_int_spec (p : path) (k : Int) (h : PathInv p)
    (hfit : 2 + (((segments p).take
        (if 1 ≤ k ∧ k ≤ p.depth then k else p.depth).toNat).map
          (fun s => (s.length : Int) + 1)).sum ≤ INT_MAX) :
    path2str_int p k = .ok ((if p.is_abspath then ['/'] else []) ++
      List.intercalate ['/']
        ((segments p).take (if 1 ≤ k ∧ k ≤ p.depth then k else p.depth).toNat)) := by
  obtain ⟨_, cs, rest, hst, hd, hok⟩ := h
  have hlen : ∀ c ∈ cs, c.len = c.str.length := fun c hc => (hok c hc).1
  have hint := path2str_int_of_rep p k cs rest hst hd hlen
  rw [used_sum_eq p cs rest _ hst hd hlen] at hint
  have hfit1 : 2 + (((segments p).take (used_depth p k).toNat).map
      (fun s => (s.length : Int) + 1)).sum ≤ INT_MAX := hfit
  rw [if_pos hfit1] at hint
  obtain ⟨b, hb, hbytes, _, _⟩ := path2str_buf_ok p k cs rest hst hd hlen
  rw [hint, segments_of_rep p cs rest hst hd, ← join_slash_eq_intercalate, ← List.map_take]
  simp only [path2str, hb, hbytes, used_depth]

theorem path2str_int_spec_witness :
    PathInv ⟨3, 3, true, [.comp ⟨1, ['a']⟩, .comp ⟨1, ['b']⟩, .comp ⟨1, ['c']⟩, .null]⟩ ∧
    path2str_int ⟨3, 3, true, [.comp ⟨1, ['a']⟩, .comp ⟨1, ['b']⟩, .comp ⟨1, ['c']⟩, .null]⟩ 2 =
      .ok "/a/b".toList :=
  ⟨⟨by decide, [⟨1, ['a']⟩, ⟨1, ['b']⟩, ⟨1, ['c']⟩], [], rfl, rfl, by decide⟩,
    (path2str_int_spec
      ⟨3, 3, true, [.comp ⟨1, ['a']⟩, .comp ⟨1, ['b']⟩, .comp ⟨1, ['c']⟩, .null]⟩ 2
      ⟨by decide, [⟨1, ['a']⟩, ⟨1, ['b']⟩, ⟨1, ['c']⟩], [], rfl, rfl, by decide⟩
      (by decide)).trans (by decide)⟩

/-- C14, as stated, fails for a path too long for `int destlen`: `/` followed by
`2 ^ 31 - 3` letters meets the precondition of `canonicalize_abspath`, and yet no
string is returned. -/
theorem canonicalize_abspath_int_overflow :
    IS_ABSPATH ('/' :: List.replicate 2147483645 'a') = true ∧
    canonicalize_abspath_int ('/' :: List.replicate 2147483645 'a') =
      .error Fault.overflow ∧
    ¬ ∃ q, canonicalize_abspath_int ('/' :: List.replicate 2147483645 'a') = .ok q := by
  have h := canonicalize_abspath_int_long 2147483645 (le_refl _)
  refine ⟨rfl, h, ?_⟩
  rintro ⟨q, hq⟩
  rw [h] at hq
  exact absurd hq (by simp)

/-- C14, amended: a canonicaliser whose absoluteness precondition is violated
fails by its assertion, whatever the length of its arguments; and when the string
to canonicalise (`p`, or the base, a `/` and the relative path) has at most
`INT_MAX - 2` bytes, it fails by an assertion exactly when the precondition is
violated and returns a string in every other case. The precondition of
`canonicalize_abspath p` is that `p` begins with `/`; of
`canonicalize_relpath rel base`, that `rel` does not and `base` does; of
`canonicalize_path p base`, that `p` or `base` does. -/
theorem canonicalizers_int_fail_iff (p rel base : CStr) :
    (IS_ABSPATH p = false → canonicalize_abspath_int p = .error Fault.assertion) ∧
    ((p.length : Int) + 2 ≤ INT_MAX →
      (canonicalize_abspath_int p = .error Fault.assertion ↔ IS_ABSPATH p = false) ∧
      ((∃ q, canonicalize_abspath_int p = .ok q) ↔ IS_ABSPATH p = true)) ∧
    ((IS_ABSPATH rel = true ∨ IS_ABSPATH base = false) →
      canonicalize_relpath_int rel base = .error Fault.assertion) ∧
    ((base.length : Int) + 1 + rel.length + 2 ≤ INT_MAX →
      (canonicalize_relpath_int rel base = .error Fault.assertion ↔
        (IS_ABSPATH rel = true ∨ IS_ABSPATH base = false)) ∧
      ((∃ q, canonicalize_relpath_int rel base = .ok q) ↔
        (IS_ABSPATH rel = false ∧ IS_ABSPATH base = true))) ∧
    ((IS_ABSPATH p = false ∧ IS_ABSPATH base = false) →
      canonicalize_path_int p base = .error Fault.assertion) ∧
    ((((if IS_ABSPATH p then p.length else base.length + 1 + p.length : Nat) : Int)) + 2
        ≤ INT_MAX →
      (canonicalize_path_int p base = .error Fault.assertion ↔
        (IS_ABSPATH p = false ∧ IS_ABSPATH base = false)) ∧
      ((∃ q, canonicalize_path_int p base = .ok q) ↔
        (IS_ABSPATH p = true ∨ IS_ABSPATH base = true))) := by
  have hpbad : ∀ x b : CStr, IS_ABSPATH x = false → IS_ABSPATH b = false →
      canonicalize_path_int x b = .error Fault.assertion := by
    intro x b hx hb
    simp only [canonicalize_path_int, hx, Bool.false_eq_true, ↓reduceIte]
    exact canonicalize_relpath_int_bad x b (Or.inr hb)
  refine ⟨canonicalize_abspath_int_rel p, ?_, canonicalize_relpath_int_bad rel base, ?_,
    fun h => hpbad p base h.1 h.2, ?_⟩
  · intro hfit
    cases hp : IS_ABSPATH p with
    | true => rw [canonicalize_abspath_int_fit p hp hfit]; simp
    | false => rw [canonicalize_abspath_int_rel p hp]; simp
  · intro hfit
    cases hr : IS_ABSPATH rel with
    | true => rw [canonicalize_relpath_int_bad rel base (Or.inl hr)]; simp
    | false =>
      cases hb : IS_ABSPATH base with
      | true =>
        rw [canonicalize_relpath_int_eq rel base hr hb,
          canonicalize_abspath_int_fit _ (IS_ABSPATH_append base _ hb)
            (by simp only [List.length_append, List.length_cons]; push_cast; omega)]
        simp
      | false => rw [canonicalize_relpath_int_bad rel base (Or.inr hb)]; simp
  · intro hfit
    rw [← resolved_length] at hfit
    cases hp : IS_ABSPATH p with
    | true => rw [canonicalize_path_int_fit p base (Or.inl hp) hfit]; simp
    | false =>
      cases hb : IS_ABSPATH base with
      | true => rw [canonicalize_path_int_fit p base (Or.inr hb) hfit]; simp
      | false => rw [hpbad p base hp hb]; simp

theorem canonicalizers_int_fail_iff_witness :
    ((("/a/../b".toList.length : Nat) : Int) + 2 ≤ INT_MAX ∧
      ((canonicalize_abspath_int "/a/../b".toList = .error Fault.assertion ↔
          IS_ABSPATH "/a/../b".toList = false) ∧
        ((∃ q, canonicalize_abspath_int "/a/../b".toList = .ok q) ↔
          IS_ABSPATH "/a/../b".toList = true))) ∧
    canonicalize_abspath_int "/a/../b".toList = .ok "/b".toList ∧
    canonicalize_abspath_int "a/b".toList = .error Fault.assertion ∧
    canonicalize_relpath_int "/a".toList "/b".toList = .error Fault.assertion ∧
    canonicalize_path_int "a".toList "b".toList = .error Fault.assertion :=
  ⟨⟨by decide,
      (canonicalizers_int_fail_iff "/a/../b".toList "c".toList "/x".toList).2.1 (by decide)⟩,
    by decide, by decide, by decide, by decide⟩

/-- C19, as stated, fails on a stack whose one segment has `2 ^ 31 - 3` bytes: the
stack satisfies the PathStack invariant, and `2 + (len + 1)` is `2 ^ 31`, more than
an `int` holds, so that `destlen` is not the size of a block that takes the
bytes written; the run faults. -/
theorem path2str_buf_int_overflow :
    PathInv ⟨3, 1, false,
      [Slot.comp ⟨2147483645, List.replicate 2147483645 'a'⟩, Slot.null]⟩ ∧
    (2 : Int) + (2147483645 + 1) > INT_MAX ∧
    path2str_buf_int ⟨3, 1, false,
      [Slot.comp ⟨2147483645, List.replicate 2147483645 'a'⟩, Slot.null]⟩ 0 =
        .error Fault.overflow :=
  ⟨path_inv_long false 2147483645 2147483645 (by norm_num) (by norm_num), by decide,
    path2str_buf_int_long false 2147483645 2147483645 (by norm_num) (le_refl _) 0⟩

/-- C19, amended: for every stack that satisfies the PathStack invariant and every
integer `k` such that `2 + Σ (len + 1)`, summed over the segments used, is at most
`INT_MAX`, `path2str` runs without a failed assertion and without a store outside
the block it allocated: the block has `2 + Σ (len + 1)` bytes, and the bytes
written, terminating NUL included, fit into it. -/
theorem path2str_int_safe (p : path) (k : Int) (h : PathInv p)
    (hfit : 2 + (((segments p).take
        (if 1 ≤ k ∧ k ≤ p.depth then k else p.depth).toNat).map
          (fun s => (s.length : Int) + 1)).sum ≤ INT_MAX) :
    ∃ b, path2str_buf_int p k = .ok b ∧
      path2str_buf_int p k ≠ .error Fault.assertion ∧
      b.alloc = 2 + (((segments p).take
        (if 1 ≤ k ∧ k ≤ p.depth then k else p.depth).toNat).map
          (fun s => (s.length : Int) + 1)).sum ∧
      (b.bytes.length : Int) + 1 ≤ b.alloc ∧
      b.alloc ≤ INT_MAX := by
  obtain ⟨_, cs, rest, hst, hd, hok⟩ := h
  have hlen : ∀ c ∈ cs, c.len = c.str.length := fun c hc => (hok c hc).1
  have hint := path2str_buf_int_eq p k cs rest hst hd hlen
  rw [used_sum_eq p cs rest _ hst hd hlen] at hint
  have hfit1 : 2 + (((segments p).take (used_depth p k).toNat).map
      (fun s => (s.length : Int) + 1)).sum ≤ INT_MAX := hfit
  rw [if_pos hfit1] at hint
  obtain ⟨b, hb, _, halloc, hroom⟩ := path2str_buf_ok p k cs rest hst hd hlen
  rw [used_sum_eq p cs rest _ hst hd hlen] at halloc
  rw [hint]
  refine ⟨b, hb, by rw [hb]; simp, halloc, hroom, ?_⟩
  rw [halloc]; exact hfit1

theorem path2str_int_safe_witness :
    PathInv ⟨3, 3, true, [.comp ⟨1, ['a']⟩, .comp ⟨2, ['b', 'b']⟩, .comp ⟨1, ['c']⟩, .null]⟩ ∧
    ∃ b, path2str_buf_int
        ⟨3, 3, true, [.comp ⟨1, ['a']⟩, .comp ⟨2, ['b', 'b']⟩, .comp ⟨1, ['c']⟩, .null]⟩ 2 =
          .ok b ∧
      b.alloc = 7 ∧ b.bytes = "/a/bb".toList :=
  ⟨⟨by decide, [⟨1, ['a']⟩, ⟨2, ['b', 'b']⟩, ⟨1, ['c']⟩], [], rfl, rfl, by decide⟩,
    (path2str_int_safe
      ⟨3, 3, true, [.comp ⟨1, ['a']⟩, .comp ⟨2, ['b', 'b']⟩, .comp ⟨1, ['c']⟩, .null]⟩ 2
      ⟨by decide, [⟨1, ['a']⟩, ⟨2, ['b', 'b']⟩, ⟨1, ['c']⟩], [], rfl, rfl, by decide⟩
      (by decide)).elim
      (fun b hb => ⟨b, hb.1, by
        have e := Except.ok.inj (hb.1.symm.trans
          (show path2str_buf_int _ 2 = .ok ⟨7, "/a/bb".toList⟩ by decide))
        rw [e]; exact ⟨rfl, rfl⟩⟩)⟩

end CDE
